import Mathlib

/-!
# Verification of the `red-resource` distributed object pool

This file gives a shallow embedding of the pool's store-side atomic scripts
(`ObjectPoolClient` in `src/object-pool-client.ts`), the per-claim state
machine (`Claim` in `src/object-pool.ts`), the dispatch-engine tick handler
(`ObjectPool.$claim`), and the registry (`ObjectPoolRegistry`), together with
proofs about them.

Modelling conventions:
* The shared key-value store (Redis) state for one pool is a `Store` record.
  Redis sets are modelled as insertion-ordered duplicate-free lists (`SADD`
  appends when absent; `SDIFF`/`SMEMBERS` preserve insertion order, as the
  listpack encoding does for the small sets this library produces).
* A Redis key that does not exist is modelled by the empty list (for list and
  hash keys — Redis deletes empty lists automatically) or `none`/`false` for
  string keys.
* Key TTLs are not tracked numerically; the expiry of a `P:session:<o>` or
  `P:delay:<o>` key is modelled as a nondeterministic environment step that
  deletes the key (`Reachable.expireSession` / `Reachable.expireDelay`).
* Each atomic script is one pure function `Store → ... → Store × result`.
  Scripts that would raise a Redis error (e.g. `MGET` with no keys when the
  object list is empty) return `none`.
-/

namespace RedResource

/-- `SADD`: add one member to a set modelled as an insertion-ordered
duplicate-free list; appends only when absent. -/
def sadd (s : List String) (x : String) : List String :=
  if x ∈ s then s else s ++ [x]

/-- `SADD key m1 … mn`: add all members in order. -/
def saddAll (s : List String) (xs : List String) : List String :=
  xs.foldl sadd s

/-- Point update of a function-modelled key family. -/
def upd {α : Type} (f : String → α) (k : String) (v : α) : String → α :=
  fun x => if x = k then v else f x

/-- `pairTagValue` from the source: the `<tag>:<value>` suffix naming a
tagged queue. -/
def pairTagValue (tag value : String) : String :=
  tag ++ ":" ++ value

/-- The tagged-queue key of one `(tag, value)` hash entry. -/
def pairKey (tv : String × String) : String :=
  pairTagValue tv.1 tv.2

/-- `HSET hash f v`: set one field of a hash modelled as an association list
with unique field names. -/
def hset (h : List (String × String)) (f v : String) : List (String × String) :=
  if h.any (fun p => p.1 = f) then
    h.map (fun p => if p.1 = f then (f, v) else p)
  else
    h ++ [(f, v)]

/-- `HSET hash f1 v1 … fn vn`: set all given fields in order. -/
def hsetAll (h : List (String × String)) (pairs : List (String × String)) :
    List (String × String) :=
  pairs.foldl (fun h p => hset h p.1 p.2) h

/-- `HGET hash f`. -/
def hget (h : List (String × String)) (f : String) : Option String :=
  (h.find? (fun p => p.1 = f)).map (fun p => p.2)

/-- One `LREM key 1 o` per element of `objects`, in order. -/
def eraseEach (c : List String) (objects : List String) : List String :=
  objects.foldl (fun c o => c.erase o) c

/-- `RPUSH` one object onto the tagged queue of every `(tag, value)` entry
of one hash. -/
def pushOne (tq : String → List String) (pairs : List (String × String))
    (o : String) : String → List String :=
  pairs.foldl (fun tq tv => upd tq (pairKey tv) (tq (pairKey tv) ++ [o])) tq

/-- The per-object tagged-queue repopulation loop shared by `requeue`,
`cleanExpired` and `cleanDelayed`: for each object, `RPUSH` it onto the
tagged queue of every `(tag, value)` entry of its `P:tags:<o>` hash. -/
def pushTagged (tq : String → List String) (tagsOf : String → List (String × String))
    (objects : List String) : String → List String :=
  objects.foldl (fun tq o => pushOne tq (tagsOf o) o) tq

/-- `LREM … 1 o` from the tagged queue of every `(tag, value)` entry of one
hash. -/
def eraseOne (tq : String → List String) (pairs : List (String × String))
    (o : String) : String → List String :=
  pairs.foldl (fun tq tv => upd tq (pairKey tv) ((tq (pairKey tv)).erase o)) tq

/-- The per-object tagged-queue removal loop of `claim`: for each object,
`LREM … 1 o` from the tagged queue of every entry of its `P:tags:<o>` hash
(the `DEL`-when-empty step is invisible here: an absent list key and an empty
list are the same model state). -/
def eraseTagged (tq : String → List String) (tagsOf : String → List (String × String))
    (objects : List String) : String → List String :=
  objects.foldl (fun tq o => eraseOne tq (tagsOf o) o) tq

/-- The `queueTagged` tagged-queue loop: `RPUSH` all `newObjects` onto the
tagged queue of each `(tag, value)` entry of the call's tag record. -/
def pushAllTagged (tq : String → List String) (entries : List (String × String))
    (objects : List String) : String → List String :=
  entries.foldl
    (fun tq tv => upd tq (pairKey tv) (tq (pairKey tv) ++ objects)) tq

/-- The state of one pool `P` in the shared store.

Fields mirror the key families of `ObjectPoolClient`:
`P:all`, `P:queue`, `P:queued`, `P:claimed`, `P:delayed-queue`,
`P:session:<o>`, `P:delay:<o>`, `P:tags:<o>`, `P:tagged-queue:<t>:<v>`.
`taggedQueue` is keyed by the concatenated `<tag>:<value>` string, exactly as
the source builds the key, so colliding concatenations share a queue. -/
structure Store where
  all : List String
  queue : List String
  queued : List String
  claimed : List String
  delayedQueue : List String
  session : String → Option String
  delay : String → Bool
  tags : String → List (String × String)
  taggedQueue : String → List String

/-- The store of a pool that has never been touched: no key exists. -/
def initStore : Store where
  all := []
  queue := []
  queued := []
  claimed := []
  delayedQueue := []
  session := fun _ => none
  delay := fun _ => false
  tags := fun _ => []
  taggedQueue := fun _ => []

/-- `ObjectPoolClient.queueTagged(tags, objects, delaySeconds)`.

Returns the new store, the returned `newObjects` list, and whether a message
was published on the `P:queued` channel. The wrapper publishes exactly when
the script returned a non-empty list. -/
def queueTagged (s : Store) (tags : List (String × String)) (objects : List String)
    (delaySeconds : Int) : Store × List String × Bool :=
  if objects = [] then (s, [], false) else
  -- SADD tmp …objects; SDIFF tmp P:all; DEL tmp
  let newObjects := (saddAll [] objects).filter (fun o => o ∉ s.all)
  if newObjects = [] then (s, [], false) else
  let s1 : Store := { s with all := saddAll s.all newObjects }
  let s2 : Store :=
    if delaySeconds > 0 then
      { s1 with
        delayedQueue := s1.delayedQueue ++ newObjects,
        delay := fun o => if o ∈ newObjects then true else s1.delay o }
    else
      { s1 with
        queued := saddAll s1.queued newObjects,
        queue := s1.queue ++ newObjects }
  let s3 : Store :=
    if tags = [] then s2 else
    let s2' : Store :=
      if delaySeconds ≤ 0 then
        { s2 with taggedQueue := pushAllTagged s2.taggedQueue tags newObjects }
      else s2
    { s2' with
      tags := fun o => if o ∈ newObjects then hsetAll (s2'.tags o) tags else s2'.tags o }
  (s3, newObjects, true)

/-- `ObjectPoolClient.queue(...objects)` = `queueTagged({}, objects)`. -/
def queuePool (s : Store) (objects : List String) : Store × List String × Bool :=
  queueTagged s [] objects 0

/-- The body of the `claim` script after the `maxCount == 0` early return:
pop (untagged or tagged path), then the shared bookkeeping on the popped
objects. `sess` is the freshly generated session id, `tag` is `''` when the
tag argument is absent. -/
def claimScript (s : Store) (maxCount : Nat) (sess : String) (tag : String) :
    Store × List String :=
  let pop : Option (Store × List String) :=
    if tag = "" ∨ maxCount < 2 then
      -- objects = LPOP P:queue maxCount
      match s.queue with
      | [] => none
      | _ => some ({ s with queue := s.queue.drop maxCount }, s.queue.take maxCount)
    else
      match s.queue with
      | [] => none
      | h :: rest =>
        match hget (s.tags h) tag with
        | none => some ({ s with queue := rest }, [h])
        | some v =>
          let k := pairTagValue tag v
          let tq := (s.taggedQueue k).erase h
          let restObjects := tq.take (maxCount - 1)
          some ({ s with
                  queue := eraseEach rest restObjects,
                  taggedQueue := upd s.taggedQueue k (tq.drop (maxCount - 1)) },
                h :: restObjects)
  match pop with
  | none => (s, [])
  | some (s1, objects) =>
    ({ s1 with
       queued := s1.queued.filter (fun o => o ∉ objects),
       session := fun o => if o ∈ objects then some sess else s1.session o,
       taggedQueue := eraseTagged s1.taggedQueue s1.tags objects,
       claimed := s1.claimed ++ objects },
     objects)

/-- `ObjectPoolClient.claim(maxCount, expirationSeconds, tag?)`. The session
TTL `expirationSeconds` is kept as an argument but, TTLs being modelled by
nondeterministic expiry steps, does not enter the state. -/
def claim (s : Store) (maxCount : Nat) (expirationSeconds : Nat) (sess : String)
    (tag : String) : Store × List String :=
  if maxCount = 0 then (s, []) else claimScript s maxCount sess tag

/-- `ObjectPoolClient.extend(objects, session, expirationSeconds)`. `none`
models the Redis error raised by `MGET` with zero keys when `objects` is
empty. -/
def extend (s : Store) (objects : List String) (sess : String)
    (expirationSeconds : Nat) : Option (Store × Bool) :=
  if objects = [] then none
  else if ¬ objects.all (fun o => s.session o = some sess) then some (s, false)
  else
    some ({ s with
            session := fun o => if o ∈ objects then some sess else s.session o,
            claimed := eraseEach s.claimed objects ++ objects },
          true)

/-- `ObjectPoolClient.release(objects, session)`. -/
def release (s : Store) (objects : List String) (sess : String) :
    Option (Store × Bool) :=
  if objects = [] then none
  else if ¬ objects.all (fun o => s.session o = some sess) then some (s, false)
  else
    some ({ s with
            session := fun o => if o ∈ objects then none else s.session o,
            all := s.all.filter (fun o => o ∉ objects),
            claimed := eraseEach s.claimed objects,
            tags := fun o => if o ∈ objects then [] else s.tags o },
          true)

/-- `ObjectPoolClient.requeue(objects, session, delaySeconds)`. The third
component of the result records whether a message was published on
`P:queued`: the wrapper publishes exactly when the script returned 1. -/
def requeue (s : Store) (objects : List String) (sess : String)
    (delaySeconds : Int) : Option (Store × Bool × Bool) :=
  if objects = [] then none
  else if ¬ objects.all (fun o => s.session o = some sess) then some (s, false, false)
  else
    let s1 : Store :=
      { s with session := fun o => if o ∈ objects then none else s.session o }
    let s2 : Store :=
      if delaySeconds > 0 then
        { s1 with
          delayedQueue := s1.delayedQueue ++ objects,
          delay := fun o => if o ∈ objects then true else s1.delay o }
      else
        { s1 with
          queued := saddAll s1.queued objects,
          queue := s1.queue ++ objects }
    let s3 : Store := { s2 with claimed := eraseEach s2.claimed objects }
    let s4 : Store :=
      if delaySeconds ≤ 0 then
        { s3 with taggedQueue := pushTagged s3.taggedQueue s3.tags objects }
      else s3
    some (s4, true, true)

/-- The head-scan loop of `cleanExpired`/`cleanDelayed`: walk the list with
`LINDEX`, incrementing `total` while the probed key is gone, breaking at the
first entry whose key still exists. -/
def gonePrefixLen (gone : String → Bool) : List String → Nat
  | [] => 0
  | o :: rest => if gone o then gonePrefixLen gone rest + 1 else 0

/-- `ObjectPoolClient.cleanExpired()`: pop the head prefix of `P:claimed`
whose `P:session:<o>` keys no longer exist, requeue it, repopulate tagged
queues, publish iff anything moved. -/
def cleanExpired (s : Store) : Store × List String × Bool :=
  let total := gonePrefixLen (fun o => (s.session o).isNone) s.claimed
  if total = 0 then (s, [], false) else
  let requeuedObjects := s.claimed.take total
  ({ s with
     claimed := s.claimed.drop total,
     queued := saddAll s.queued requeuedObjects,
     queue := s.queue ++ requeuedObjects,
     taggedQueue := pushTagged s.taggedQueue s.tags requeuedObjects },
   requeuedObjects, true)

/-- `ObjectPoolClient.cleanDelayed()`: pop the head prefix of
`P:delayed-queue` whose `P:delay:<o>` keys have expired, promote it to the
queue, repopulate tagged queues, publish iff anything moved. -/
def cleanDelayed (s : Store) : Store × List String × Bool :=
  let total := gonePrefixLen (fun o => !(s.delay o)) s.delayedQueue
  if total = 0 then (s, [], false) else
  let queuedObjects := s.delayedQueue.take total
  ({ s with
     delayedQueue := s.delayedQueue.drop total,
     queued := saddAll s.queued queuedObjects,
     queue := s.queue ++ queuedObjects,
     taggedQueue := pushTagged s.taggedQueue s.tags queuedObjects },
   queuedObjects, true)

/-- `ObjectPoolClient.clean()`: `cleanExpired` then `cleanDelayed`; the
returned list is the duplicate-free union of both results. -/
def cleanPool (s : Store) : Store × List String :=
  let r1 := cleanExpired s
  let r2 := cleanDelayed r1.1
  (r2.1, saddAll [] (r1.2.1 ++ r2.2.1))

/-! ## Environment steps: TTL expiry

Redis deletes `P:session:<o>` / `P:delay:<o>` when their TTL elapses (the
tests also force this with `GETDEL`). We model it as a nondeterministic
deletion step. -/

/-- The `P:session:<o>` key of `o` expires (or is force-deleted). -/
def expireSession (s : Store) (o : String) : Store :=
  { s with session := fun x => if x = o then none else s.session x }

/-- The `P:delay:<o>` key of `o` expires. -/
def expireDelay (s : Store) (o : String) : Store :=
  { s with delay := fun x => if x = o then false else s.delay x }

/-- Store states reachable from the untouched pool through the atomic
operations and TTL-expiry environment steps. The object-list operations are
taken with duplicate-free lists, and `queueTagged` with tag records whose
field names and derived `<tag>:<value>` key strings are duplicate-free, as a
TypeScript `Record<string, string>` of non-colliding entries produces. -/
inductive Reachable : Store → Prop where
  | init : Reachable initStore
  | queueTagged {s} (tags : List (String × String)) (objects : List String) (d : Int)
      (hfields : (tags.map Prod.fst).Nodup) (hkeys : (tags.map pairKey).Nodup)
      (hs : Reachable s) : Reachable (queueTagged s tags objects d).1
  | claim {s} (maxCount expirationSeconds : Nat) (sess tag : String)
      (hs : Reachable s) : Reachable (claim s maxCount expirationSeconds sess tag).1
  | extend {s s' b} (objects : List String) (sess : String) (e : Nat)
      (hnd : objects.Nodup) (h : extend s objects sess e = some (s', b))
      (hs : Reachable s) : Reachable s'
  | release {s s' b} (objects : List String) (sess : String)
      (hnd : objects.Nodup) (h : release s objects sess = some (s', b))
      (hs : Reachable s) : Reachable s'
  | requeue {s s' r} (objects : List String) (sess : String) (d : Int)
      (hnd : objects.Nodup) (h : requeue s objects sess d = some (s', r))
      (hs : Reachable s) : Reachable s'
  | cleanExpired {s} (hs : Reachable s) : Reachable (cleanExpired s).1
  | cleanDelayed {s} (hs : Reachable s) : Reachable (cleanDelayed s).1
  | expireSession {s} (o : String) (hs : Reachable s) : Reachable (expireSession s o)
  | expireDelay {s} (o : String) (hs : Reachable s) : Reachable (expireDelay s o)

/-! ## The `Claim` lifecycle state machine (`src/object-pool.ts`) -/

/-- `claimTTLSeconds = 30`. -/
def claimTTLSeconds : Nat := 30

/-- The delay of the auto-extension timer: `(claimTTLSeconds / 2) * 1000`
milliseconds. -/
def autoExtendDelayMS : Nat := (claimTTLSeconds / 2) * 1000

/-- `ClaimState` from the source. -/
inductive ClaimState where
  | claimed
  | extending
  | releasing
  | released
  | requeuing
  | requeued
  | expired
deriving DecidableEq

/-- `TerminalClaimStates`. -/
def TerminalClaimStates : List ClaimState :=
  [ClaimState.expired, ClaimState.released, ClaimState.requeued]

/-- `isTerminalClaimState`. -/
def isTerminalClaimState (st : ClaimState) : Bool :=
  TerminalClaimStates.contains st

/-- The mutable part of a `Claim`: the current `ClaimState` (the
`BehaviorSubject`'s value) and whether the auto-extension `setTimeout` handle
is live (`this.timeout != null`). -/
structure ClaimSM where
  state : ClaimState
  timerArmed : Bool
deriving DecidableEq

/-- A freshly constructed `Claim`: the `BehaviorSubject` starts at
`ClaimState.Claimed` and the `timeout` field starts unset — the constructor
body is empty and `setState` has not run. -/
def ClaimSM.new : ClaimSM :=
  { state := ClaimState.claimed, timerArmed := false }

/-- `Claim.setState(state)`: no-op on self-transition; throws (modelled
`none`) from a terminal state; arms the `ttl/2` auto-extension timer when
entering `Claimed` (if not already armed), cancels it on any other target. -/
def ClaimSM.setState (c : ClaimSM) (st : ClaimState) : Option ClaimSM :=
  if c.state = st then some c
  else if isTerminalClaimState c.state then none
  else
    some { state := st,
           timerArmed :=
             if st = ClaimState.claimed then
               (if c.timerArmed then c.timerArmed else true)
             else false }

/-- `Claim.extend()`: from `Claimed`, pass through `Extending`, then back to
`Claimed` on a true result from the store (`ok`) or to `Expired` on false.
From any other state: return false without side effect. -/
def ClaimSM.extendStep (c : ClaimSM) (ok : Bool) : Option (ClaimSM × Bool) :=
  if c.state ≠ ClaimState.claimed then some (c, false)
  else do
    let c1 ← c.setState ClaimState.extending
    let c2 ← c1.setState (if ok then ClaimState.claimed else ClaimState.expired)
    pure (c2, ok)

/-- `Claim.release()`. -/
def ClaimSM.releaseStep (c : ClaimSM) (ok : Bool) : Option (ClaimSM × Bool) :=
  if c.state ≠ ClaimState.claimed then some (c, false)
  else do
    let c1 ← c.setState ClaimState.releasing
    let c2 ← c1.setState (if ok then ClaimState.released else ClaimState.expired)
    pure (c2, ok)

/-- `Claim.requeue(delaySeconds?)`. -/
def ClaimSM.requeueStep (c : ClaimSM) (ok : Bool) : Option (ClaimSM × Bool) :=
  if c.state ≠ ClaimState.claimed then some (c, false)
  else do
    let c1 ← c.setState ClaimState.requeuing
    let c2 ← c1.setState (if ok then ClaimState.requeued else ClaimState.expired)
    pure (c2, ok)

/-! ## The dispatch-engine tick (`ObjectPool.$claim`) -/

/-- One combined tick of `ObjectPool.$claim({maxClaimedCount, queue})` as the
pipeline processes it: the `map` stage computes
`available = maxClaimedCount - claimedCount`; the `filter` stage drops the
tick unless `available > 0`; the `exhaustMap` callback then runs
`if (objects.length > 0) { await queueTagged(tags, objects); return claim(available) }`
— its `undefined` result (dropped by the following `filter`) is `none`.
The result carries the store after the tick and the objects of the claims
emitted for it. -/
def dispatchTick (s : Store) (maxClaimedCount claimedCount : Int)
    (seedObjects : List String) (seedTags : List (String × String))
    (sess : String) : Option (Store × List String) :=
  let available := maxClaimedCount - claimedCount
  if available > 0 then
    if seedObjects.length > 0 then
      let s1 := (queueTagged s seedTags seedObjects 0).1
      some (claim s1 available.toNat claimTTLSeconds sess "")
    else none
  else none

/-! ## The registry (`src/object-pool.registry.ts`) -/

/-- `ObjectPoolRegistry.add(...pools)`: `this.pools.push(...pools)` and one
`$newPools.next` per argument. Pools are identified by their name. -/
def registryAdd (pools newPools : List String) : List String :=
  pools ++ newPools

/-- `ObjectPoolRegistry.get(poolName)`: first registered pool with that
name. -/
def registryGet (pools : List String) (poolName : String) : Option String :=
  pools.find? (fun p => p = poolName)

/-- How many times the registry's merged `$clean` stream subscribes a pool's
`$clean`: the `mergeMap` over `concat(defer(from(pools)), $newPools)`
subscribes once per emission, i.e. once per occurrence of the pool in the
registry list. -/
def cleanStreamSubscriptionCount (pools : List String) (p : String) : Nat :=
  pools.count p

/-! ## Concrete scenario states used by the end-to-end properties -/

/-- First-occurrence-order deduplication, written the way the spec describes
`newObjects` (keep the first occurrence of each object, drop later repeats). -/
def dedupFirst (l : List String) : List String :=
  l.foldl (fun acc o => if o ∈ acc then acc else acc ++ [o]) []

/-- The spec's description of `queueTagged`'s result:
`newObjects = objects \ P:all`, deduplicated preserving first-occurrence
order. -/
def specNewObjects (objects all : List String) : List String :=
  dedupFirst (objects.filter (fun o => o ∉ all))

/-- The store after `queue("a")` followed by `claim(1, 60)` under session
`"S"`. -/
def claimedAStore : Store :=
  (claim (queuePool initStore ["a"]).1 1 60 "S" "").1

/-- `claimedAStore` after `P:session:a` expired (or was deleted, as the
expiry-reclaim scenario does). -/
def expiredAStore : Store :=
  expireSession claimedAStore "a"

/-- The store after `queueTagged({}, ["a"], 5)`, once the 5-second
`P:delay:a` key has expired, followed by the atomic `cleanExpired` (which
touches nothing here). -/
def delayExpiredAStore : Store :=
  (cleanExpired (expireDelay (queueTagged initStore [] ["a"] 5).1 "a")).1

/-- `claimedAStore` after `extend(["a","a"], "S", 60)` — the same object
listed twice in one call. -/
def dupExtendStore : Store :=
  match extend claimedAStore ["a", "a"] "S" 60 with
  | some r => r.1
  | none => claimedAStore

/-- `dupExtendStore` after `release(["a"], "S")`. -/
def dupExtendReleasedStore : Store :=
  match release dupExtendStore ["a"] "S" with
  | some r => r.1
  | none => dupExtendStore

/-- The store after `queueTagged({a: "b:c", "a:b": "c"}, ["o1","o2"], 0)`:
two distinct tag fields whose `<tag>:<value>` concatenations collide on the
single key `a:b:c`. -/
def collidingTagsStore : Store :=
  (queueTagged initStore [("a", "b:c"), ("a:b", "c")] ["o1", "o2"] 0).1

/-- `collidingTagsStore` after the tagged `claim(3, 60, "a")` under session
`"S"`. -/
def collidingClaimStore : Store :=
  (claim collidingTagsStore 3 60 "S" "a").1

/-- `collidingClaimStore` after `release(["o1","o2"], "S")`. -/
def collidingReleasedStore : Store :=
  match release collidingClaimStore ["o1", "o2"] "S" with
  | some r => r.1
  | none => collidingClaimStore

/-- The tagged-batch scenario store:
`queueTagged({t:"x"},["a","b","c"],0); queueTagged({t:"y"},["d"],0);
queueTagged({t:"x"},["e"],0)`. -/
def taggedScenarioStore : Store :=
  (queueTagged
    (queueTagged
      (queueTagged initStore [("t", "x")] ["a", "b", "c"] 0).1
      [("t", "y")] ["d"] 0).1
    [("t", "x")] ["e"] 0).1

/-- The result of `requeue(["a"], "S", 3)` on `claimedAStore` — a successful
requeue with a positive delay. -/
def requeueDelayOut : Store × Bool × Bool :=
  match requeue claimedAStore ["a"] "S" 3 with
  | some out => out
  | none => (claimedAStore, false, false)

/-! ## Basic lemmas about the store primitives -/

theorem mem_sadd {s : List String} {a x : String} :
    x ∈ sadd s a ↔ x ∈ s ∨ x = a := by
  unfold sadd
  split
  · constructor
    · exact fun h => Or.inl h
    · rintro (h | rfl) <;> assumption
  · simp [List.mem_append]

theorem nodup_sadd {s : List String} (h : s.Nodup) (a : String) :
    (sadd s a).Nodup := by
  unfold sadd
  split
  · exact h
  · simp_all [List.nodup_append]

theorem mem_saddAll {s xs : List String} {x : String} :
    x ∈ saddAll s xs ↔ x ∈ s ∨ x ∈ xs := by
  induction xs generalizing s with
  | nil => simp [saddAll]
  | cons a xs ih =>
    show x ∈ saddAll (sadd s a) xs ↔ _
    rw [ih, mem_sadd]
    simp only [List.mem_cons]
    tauto

theorem nodup_saddAll {s : List String} (h : s.Nodup) (xs : List String) :
    (saddAll s xs).Nodup := by
  induction xs generalizing s with
  | nil => exact h
  | cons a xs ih => exact ih (nodup_sadd h a)

theorem mem_eraseEach {c : List String} {objects : List String} {x : String}
    (h : c.Nodup) : x ∈ eraseEach c objects ↔ x ∈ c ∧ x ∉ objects := by
  induction objects generalizing c with
  | nil => simp [eraseEach]
  | cons o os ih =>
    show x ∈ eraseEach (c.erase o) os ↔ _
    rw [ih (h.erase o), h.mem_erase_iff]
    simp only [List.mem_cons]
    tauto

theorem nodup_eraseEach {c : List String} (h : c.Nodup) (objects : List String) :
    (eraseEach c objects).Nodup := by
  induction objects generalizing c with
  | nil => exact h
  | cons o os ih => exact ih (h.erase o)

theorem pushOne_apply {tq : String → List String} {pairs : List (String × String)}
    {o : String} (hkeys : (pairs.map pairKey).Nodup) (k : String) :
    pushOne tq pairs o k =
      if k ∈ pairs.map pairKey then tq k ++ [o] else tq k := by
  induction pairs generalizing tq with
  | nil => simp [pushOne]
  | cons tv rest ih =>
    simp only [List.map_cons, List.nodup_cons] at hkeys
    show pushOne (upd tq (pairKey tv) (tq (pairKey tv) ++ [o])) rest o k = _
    rw [ih hkeys.2]
    simp only [List.map_cons, List.mem_cons, upd]
    by_cases hkv : k = pairKey tv
    · subst hkv
      rw [if_neg hkeys.1, if_pos (Or.inl rfl), if_pos rfl]
    · by_cases hk : k ∈ rest.map pairKey
      · rw [if_pos hk, if_pos (Or.inr hk), if_neg hkv]
      · rw [if_neg hk, if_neg hkv,
          if_neg (show ¬(k = pairKey tv ∨ k ∈ rest.map pairKey) by tauto)]

theorem pushTagged_apply {tq : String → List String}
    {tagsOf : String → List (String × String)} {objects : List String}
    (hkeys : ∀ o ∈ objects, ((tagsOf o).map pairKey).Nodup) (k : String) :
    pushTagged tq tagsOf objects k =
      tq k ++ objects.filter (fun o => k ∈ (tagsOf o).map pairKey) := by
  induction objects generalizing tq with
  | nil => simp [pushTagged]
  | cons o os ih =>
    show pushTagged (pushOne tq (tagsOf o) o) tagsOf os k = _
    rw [ih (fun o ho => hkeys o (List.mem_cons_of_mem _ ho)),
        pushOne_apply (hkeys o (List.mem_cons_self o os)) k]
    by_cases hk : k ∈ (tagsOf o).map pairKey <;>
      simp [hk, List.filter_cons, List.append_assoc]

theorem nodup_upd {tq : String → List String} {k : String} {v : List String}
    (htq : ∀ k, (tq k).Nodup) (hv : v.Nodup) : ∀ j, (upd tq k v j).Nodup := by
  intro j
  unfold upd
  split
  · exact hv
  · exact htq j

theorem mem_eraseOne {tq : String → List String} {pairs : List (String × String)}
    {o x k : String} (htq : ∀ k, (tq k).Nodup) :
    x ∈ eraseOne tq pairs o k ↔ x ∈ tq k ∧ ¬(x = o ∧ k ∈ pairs.map pairKey) := by
  induction pairs generalizing tq with
  | nil => simp [eraseOne]
  | cons tv rest ih =>
    show x ∈ eraseOne (upd tq (pairKey tv) ((tq (pairKey tv)).erase o)) rest o k ↔ _
    rw [ih (nodup_upd htq ((htq _).erase o))]
    simp only [upd, List.map_cons, List.mem_cons]
    by_cases hkv : k = pairKey tv
    · subst hkv
      rw [if_pos rfl, (htq (pairKey tv)).mem_erase_iff]
      tauto
    · rw [if_neg hkv]
      tauto

theorem nodup_eraseOne {tq : String → List String} {pairs : List (String × String)}
    {o : String} (htq : ∀ k, (tq k).Nodup) : ∀ k, (eraseOne tq pairs o k).Nodup := by
  induction pairs generalizing tq with
  | nil => exact htq
  | cons tv rest ih =>
    exact ih (nodup_upd htq ((htq _).erase o))

theorem mem_eraseTagged {tq : String → List String}
    {tagsOf : String → List (String × String)} {objects : List String}
    {x k : String} (htq : ∀ k, (tq k).Nodup) :
    x ∈ eraseTagged tq tagsOf objects k ↔
      x ∈ tq k ∧ ¬(x ∈ objects ∧ k ∈ (tagsOf x).map pairKey) := by
  induction objects generalizing tq with
  | nil => simp [eraseTagged]
  | cons o os ih =>
    show x ∈ eraseTagged (eraseOne tq (tagsOf o) o) tagsOf os k ↔ _
    rw [ih (nodup_eraseOne htq), mem_eraseOne htq]
    simp only [List.mem_cons]
    by_cases hx : x = o
    · subst hx
      tauto
    · tauto

theorem nodup_eraseTagged {tq : String → List String}
    {tagsOf : String → List (String × String)} {objects : List String}
    (htq : ∀ k, (tq k).Nodup) : ∀ k, (eraseTagged tq tagsOf objects k).Nodup := by
  induction objects generalizing tq with
  | nil => exact htq
  | cons o os ih => exact ih (nodup_eraseOne htq)

theorem hsetAll_of_fresh {h : List (String × String)}
    {pairs : List (String × String)} (hnd : (pairs.map Prod.fst).Nodup)
    (hfresh : ∀ p ∈ pairs, ∀ q ∈ h, q.1 ≠ p.1) :
    hsetAll h pairs = h ++ pairs := by
  induction pairs generalizing h with
  | nil => simp [hsetAll]
  | cons p rest ih =>
    simp only [List.map_cons, List.nodup_cons] at hnd
    have hany : h.any (fun q => q.1 = p.1) = false := by
      simp only [List.any_eq_false, decide_eq_true_eq]
      exact fun q hq => hfresh p (List.mem_cons_self p rest) q hq
    show hsetAll (hset h p.1 p.2) rest = _
    rw [show hset h p.1 p.2 = h ++ [p] by simp [hset, hany]]
    rw [ih hnd.2]
    · simp
    · intro p' hp' q hq
      rcases List.mem_append.mp hq with hq | hq
      · exact hfresh p' (List.mem_cons_of_mem _ hp') q hq
      · rcases List.mem_singleton.mp hq with rfl
        intro hcontra
        exact hnd.1 (hcontra ▸ List.mem_map_of_mem Prod.fst hp')

theorem hsetAll_nil {pairs : List (String × String)}
    (hnd : (pairs.map Prod.fst).Nodup) : hsetAll [] pairs = pairs := by
  rw [hsetAll_of_fresh hnd (fun p _ q hq => absurd hq (List.not_mem_nil q))]
  rfl

theorem take_gonePrefixLen (gone : String → Bool) (l : List String) :
    l.take (gonePrefixLen gone l) = l.takeWhile gone := by
  induction l with
  | nil => rfl
  | cons o rest ih =>
    by_cases h : gone o
    · simp [gonePrefixLen, h, List.takeWhile_cons, ih]
    · simp [gonePrefixLen, h, List.takeWhile_cons]

theorem drop_gonePrefixLen (gone : String → Bool) (l : List String) :
    l.drop (gonePrefixLen gone l) = l.dropWhile gone := by
  induction l with
  | nil => rfl
  | cons o rest ih =>
    by_cases h : gone o
    · simp [gonePrefixLen, h, List.dropWhile_cons, ih]
    · simp [gonePrefixLen, h, List.dropWhile_cons]

theorem dropWhile_head_not {l : List String} {p : String → Bool} {h : String}
    {t : List String} (heq : l.dropWhile p = h :: t) : p h = false := by
  induction l with
  | nil => simp at heq
  | cons a rest ih =>
    rw [List.dropWhile_cons] at heq
    split at heq
    · exact ih heq
    · cases heq
      simp_all

/-! ## The strengthened store invariant -/

/-- Well-formedness of a pool's store state: the data-model invariants of the
pool, strengthened just enough to be inductive over the atomic scripts.
`queued`/`claimed`/`delayedQueue` partition `all`; `queued` mirrors `queue`;
a live session key implies membership in `claimed`; every tagged queue is a
duplicate-free subcollection of `queue` whose key is listed in each member's
tag hash; untracked objects have no tag hash. -/
structure WF (s : Store) : Prop where
  nodupAll : s.all.Nodup
  nodupQueue : s.queue.Nodup
  nodupQueued : s.queued.Nodup
  nodupClaimed : s.claimed.Nodup
  nodupDelayed : s.delayedQueue.Nodup
  queued_iff : ∀ o, o ∈ s.queued ↔ o ∈ s.queue
  all_iff : ∀ o, o ∈ s.all ↔ o ∈ s.queued ∨ o ∈ s.claimed ∨ o ∈ s.delayedQueue
  queued_claimed : ∀ o, o ∈ s.queued → o ∉ s.claimed
  queued_delayed : ∀ o, o ∈ s.queued → o ∉ s.delayedQueue
  claimed_delayed : ∀ o, o ∈ s.claimed → o ∉ s.delayedQueue
  session_claimed : ∀ o, s.session o ≠ none → o ∈ s.claimed
  tq_sub_queue : ∀ k o, o ∈ s.taggedQueue k → o ∈ s.queue
  tq_nodup : ∀ k, (s.taggedQueue k).Nodup
  tq_key : ∀ k o, o ∈ s.taggedQueue k → k ∈ (s.tags o).map pairKey
  tags_untracked : ∀ o, o ∉ s.all → s.tags o = []
  tags_keys_nodup : ∀ o, ((s.tags o).map pairKey).Nodup

theorem wf_init : WF initStore := by
  constructor <;> simp [initStore]

theorem wf_expireSession {s : Store} (h : WF s) (o : String) :
    WF (expireSession s o) := by
  refine
    { nodupAll := h.nodupAll, nodupQueue := h.nodupQueue,
      nodupQueued := h.nodupQueued, nodupClaimed := h.nodupClaimed,
      nodupDelayed := h.nodupDelayed, queued_iff := h.queued_iff,
      all_iff := h.all_iff, queued_claimed := h.queued_claimed,
      queued_delayed := h.queued_delayed, claimed_delayed := h.claimed_delayed,
      session_claimed := ?_, tq_sub_queue := h.tq_sub_queue,
      tq_nodup := h.tq_nodup, tq_key := h.tq_key,
      tags_untracked := h.tags_untracked, tags_keys_nodup := h.tags_keys_nodup }
  intro x hx
  by_cases hxo : x = o
  · simp [expireSession, hxo] at hx
  · simp only [expireSession, if_neg hxo] at hx
    exact h.session_claimed x hx

theorem wf_expireDelay {s : Store} (h : WF s) (o : String) :
    WF (expireDelay s o) :=
  { nodupAll := h.nodupAll, nodupQueue := h.nodupQueue,
    nodupQueued := h.nodupQueued, nodupClaimed := h.nodupClaimed,
    nodupDelayed := h.nodupDelayed, queued_iff := h.queued_iff,
    all_iff := h.all_iff, queued_claimed := h.queued_claimed,
    queued_delayed := h.queued_delayed, claimed_delayed := h.claimed_delayed,
    session_claimed := h.session_claimed, tq_sub_queue := h.tq_sub_queue,
    tq_nodup := h.tq_nodup, tq_key := h.tq_key,
    tags_untracked := h.tags_untracked, tags_keys_nodup := h.tags_keys_nodup }

theorem wf_extend {s s' : Store} {objects : List String} {sess : String}
    {e : Nat} {b : Bool} (h : WF s) (hnd : objects.Nodup)
    (heq : extend s objects sess e = some (s', b)) : WF s' := by
  unfold extend at heq
  split at heq
  · exact absurd heq (by simp)
  split at heq
  · cases heq
    exact h
  · rename_i hguard
    rw [not_not] at hguard
    have hsess : ∀ o ∈ objects, s.session o = some sess := by
      intro o ho
      have := List.all_eq_true.mp hguard o ho
      exact of_decide_eq_true this
    have hcl : ∀ o ∈ objects, o ∈ s.claimed := fun o ho =>
      h.session_claimed o (by rw [hsess o ho]; simp)
    cases heq
    have hmem : ∀ x, x ∈ eraseEach s.claimed objects ++ objects ↔ x ∈ s.claimed := by
      intro x
      rw [List.mem_append, mem_eraseEach h.nodupClaimed]
      constructor
      · rintro (⟨hx, _⟩ | hx)
        · exact hx
        · exact hcl x hx
      · intro hx
        by_cases hxo : x ∈ objects
        · exact Or.inr hxo
        · exact Or.inl ⟨hx, hxo⟩
    refine
      { nodupAll := h.nodupAll, nodupQueue := h.nodupQueue,
        nodupQueued := h.nodupQueued, nodupClaimed := ?_,
        nodupDelayed := h.nodupDelayed, queued_iff := h.queued_iff,
        all_iff := ?_, queued_claimed := ?_,
        queued_delayed := h.queued_delayed, claimed_delayed := ?_,
        session_claimed := ?_, tq_sub_queue := h.tq_sub_queue,
        tq_nodup := h.tq_nodup, tq_key := h.tq_key,
        tags_untracked := h.tags_untracked, tags_keys_nodup := h.tags_keys_nodup }
    · rw [List.nodup_append]
      refine ⟨nodup_eraseEach h.nodupClaimed objects, hnd, ?_⟩
      intro x hx
      exact ((mem_eraseEach h.nodupClaimed).mp hx).2
    · intro o
      rw [hmem o]
      exact h.all_iff o
    · intro o ho
      rw [hmem o]
      exact h.queued_claimed o ho
    · intro o ho
      exact h.claimed_delayed o ((hmem o).mp ho)
    · intro o ho
      rw [hmem o]
      by_cases hoo : o ∈ objects
      · exact hcl o hoo
      · simp only [if_neg hoo] at ho
        exact h.session_claimed o ho

theorem wf_release {s s' : Store} {objects : List String} {sess : String}
    {b : Bool} (h : WF s) (heq : release s objects sess = some (s', b)) :
    WF s' := by
  unfold release at heq
  split at heq
  · exact absurd heq (by simp)
  split at heq
  · cases heq
    exact h
  · rename_i hguard
    rw [not_not] at hguard
    have hsess : ∀ o ∈ objects, s.session o = some sess := fun o ho =>
      of_decide_eq_true (List.all_eq_true.mp hguard o ho)
    have hcl : ∀ o ∈ objects, o ∈ s.claimed := fun o ho =>
      h.session_claimed o (by rw [hsess o ho]; simp)
    have hnq : ∀ o ∈ objects, o ∉ s.queue := fun o ho hq =>
      h.queued_claimed o ((h.queued_iff o).mpr hq) (hcl o ho)
    cases heq
    have hmemc : ∀ x, x ∈ eraseEach s.claimed objects ↔ x ∈ s.claimed ∧ x ∉ objects :=
      fun x => mem_eraseEach h.nodupClaimed
    refine
      { nodupAll := h.nodupAll.filter _, nodupQueue := h.nodupQueue,
        nodupQueued := h.nodupQueued,
        nodupClaimed := nodup_eraseEach h.nodupClaimed objects,
        nodupDelayed := h.nodupDelayed, queued_iff := h.queued_iff,
        all_iff := ?_, queued_claimed := ?_,
        queued_delayed := h.queued_delayed, claimed_delayed := ?_,
        session_claimed := ?_, tq_sub_queue := h.tq_sub_queue,
        tq_nodup := h.tq_nodup, tq_key := ?_,
        tags_untracked := ?_, tags_keys_nodup := ?_ }
    · intro o
      simp only [List.mem_filter, decide_eq_true_eq]
      rw [hmemc o, h.all_iff o]
      by_cases hoo : o ∈ objects
      · have hc := hcl o hoo
        simp only [hoo, not_true_eq_false, and_false, false_iff, not_or]
        exact ⟨fun hq => h.queued_claimed o hq hc, by simp,
          h.claimed_delayed o hc⟩
      · simp [hoo]
    · intro o ho hc
      exact h.queued_claimed o ho ((hmemc o).mp hc).1
    · intro o ho
      exact h.claimed_delayed o ((hmemc o).mp ho).1
    · intro o ho
      by_cases hoo : o ∈ objects
      · simp [hoo] at ho
      · simp only [if_neg hoo] at ho
        rw [hmemc o]
        exact ⟨h.session_claimed o ho, hoo⟩
    · intro k o ho
      by_cases hoo : o ∈ objects
      · exact absurd (h.tq_sub_queue k o ho) (hnq o hoo)
      · simp only [if_neg hoo]
        exact h.tq_key k o ho
    · intro o ho
      by_cases hoo : o ∈ objects
      · simp [hoo]
      · simp only [if_neg hoo]
        refine h.tags_untracked o (fun hall => ho ?_)
        simp only [List.mem_filter, decide_eq_true_eq]
        exact ⟨hall, hoo⟩
    · intro o
      by_cases hoo : o ∈ objects
      · simp [hoo]
      · simp only [if_neg hoo]
        exact h.tags_keys_nodup o

theorem wf_requeue {s s' : Store} {objects : List String} {sess : String}
    {d : Int} {r : Bool × Bool} (h : WF s) (hnd : objects.Nodup)
    (heq : requeue s objects sess d = some (s', r)) : WF s' := by
  unfold requeue at heq
  split at heq
  · exact absurd heq (by simp)
  split at heq
  · cases heq
    exact h
  · rename_i hguard
    rw [not_not] at hguard
    have hsess : ∀ o ∈ objects, s.session o = some sess := fun o ho =>
      of_decide_eq_true (List.all_eq_true.mp hguard o ho)
    have hcl : ∀ o ∈ objects, o ∈ s.claimed := fun o ho =>
      h.session_claimed o (by rw [hsess o ho]; simp)
    have hnq : ∀ o ∈ objects, o ∉ s.queue := fun o ho hq =>
      h.queued_claimed o ((h.queued_iff o).mpr hq) (hcl o ho)
    have hndel : ∀ o ∈ objects, o ∉ s.delayedQueue := fun o ho =>
      h.claimed_delayed o (hcl o ho)
    have hmemc : ∀ x, x ∈ eraseEach s.claimed objects ↔ x ∈ s.claimed ∧ x ∉ objects :=
      fun x => mem_eraseEach h.nodupClaimed
    have hsession : ∀ o : String,
        (if o ∈ objects then none else s.session o) ≠ none →
        o ∈ eraseEach s.claimed objects := by
      intro o ho
      by_cases hoo : o ∈ objects
      · simp [hoo] at ho
      · simp only [if_neg hoo] at ho
        exact (hmemc o).mpr ⟨h.session_claimed o ho, hoo⟩
    by_cases hd : d > 0
    · simp only [if_pos hd, if_neg (show ¬ d ≤ 0 by omega)] at heq
      cases heq
      refine
        { nodupAll := h.nodupAll, nodupQueue := h.nodupQueue,
          nodupQueued := h.nodupQueued,
          nodupClaimed := nodup_eraseEach h.nodupClaimed objects,
          nodupDelayed := ?_, queued_iff := h.queued_iff,
          all_iff := ?_, queued_claimed := ?_, queued_delayed := ?_,
          claimed_delayed := ?_, session_claimed := hsession,
          tq_sub_queue := h.tq_sub_queue, tq_nodup := h.tq_nodup,
          tq_key := h.tq_key, tags_untracked := h.tags_untracked,
          tags_keys_nodup := h.tags_keys_nodup }
      · rw [List.nodup_append]
        exact ⟨h.nodupDelayed, hnd, fun x hx hxo => hndel x hxo hx⟩
      · intro o
        rw [h.all_iff o, hmemc o, List.mem_append]
        by_cases hoo : o ∈ objects
        · have := hcl o hoo
          tauto
        · tauto
      · intro o ho hc
        exact h.queued_claimed o ho ((hmemc o).mp hc).1
      · intro o ho
        rw [List.mem_append]
        rintro (hc | hc)
        · exact h.queued_delayed o ho hc
        · exact h.queued_claimed o ho (hcl o hc)
      · intro o ho
        rw [List.mem_append]
        have := (hmemc o).mp ho
        rintro (hc | hc)
        · exact h.claimed_delayed o this.1 hc
        · exact this.2 hc
    · simp only [if_neg hd, if_pos (show d ≤ 0 by omega)] at heq
      cases heq
      have htq : ∀ k, pushTagged s.taggedQueue s.tags objects k =
          s.taggedQueue k ++ objects.filter (fun o => k ∈ (s.tags o).map pairKey) :=
        pushTagged_apply (fun o _ => h.tags_keys_nodup o)
      have hmemq : ∀ x, x ∈ saddAll s.queued objects ↔ x ∈ s.queued ∨ x ∈ objects :=
        fun x => mem_saddAll
      refine
        { nodupAll := h.nodupAll, nodupQueue := ?_,
          nodupQueued := nodup_saddAll h.nodupQueued objects,
          nodupClaimed := nodup_eraseEach h.nodupClaimed objects,
          nodupDelayed := h.nodupDelayed, queued_iff := ?_,
          all_iff := ?_, queued_claimed := ?_, queued_delayed := ?_,
          claimed_delayed := ?_, session_claimed := hsession,
          tq_sub_queue := ?_, tq_nodup := ?_,
          tq_key := ?_, tags_untracked := h.tags_untracked,
          tags_keys_nodup := h.tags_keys_nodup }
      · rw [List.nodup_append]
        exact ⟨h.nodupQueue, hnd, fun x hx hxo => hnq x hxo hx⟩
      · intro o
        rw [hmemq o, List.mem_append, h.queued_iff o]
      · intro o
        rw [h.all_iff o, hmemc o, hmemq o]
        by_cases hoo : o ∈ objects
        · have := hcl o hoo
          tauto
        · tauto
      · intro o ho hc
        have := (hmemc o).mp hc
        rcases (hmemq o).mp ho with hq | hq
        · exact h.queued_claimed o hq this.1
        · exact this.2 hq
      · intro o ho
        rcases (hmemq o).mp ho with hq | hq
        · exact h.queued_delayed o hq
        · exact hndel o hq
      · intro o ho
        exact h.claimed_delayed o ((hmemc o).mp ho).1
      · intro k o ho
        dsimp only at ho ⊢
        rw [htq k, List.mem_append] at ho
        rw [List.mem_append]
        rcases ho with ho | ho
        · exact Or.inl (h.tq_sub_queue k o ho)
        · exact Or.inr (List.mem_of_mem_filter ho)
      · intro k
        dsimp only
        rw [htq k, List.nodup_append]
        refine ⟨h.tq_nodup k, hnd.filter _, ?_⟩
        intro x hx hxf
        exact hnq x (List.mem_of_mem_filter hxf) (h.tq_sub_queue k x hx)
      · intro k o ho
        dsimp only at ho ⊢
        rw [htq k, List.mem_append] at ho
        rcases ho with ho | ho
        · exact h.tq_key k o ho
        · have := List.of_mem_filter ho
          exact of_decide_eq_true this

theorem pushAllTagged_apply {tq : String → List String}
    {entries : List (String × String)} {objects : List String}
    (hkeys : (entries.map pairKey).Nodup) (k : String) :
    pushAllTagged tq entries objects k =
      if k ∈ entries.map pairKey then tq k ++ objects else tq k := by
  induction entries generalizing tq with
  | nil => simp [pushAllTagged]
  | cons tv rest ih =>
    simp only [List.map_cons, List.nodup_cons] at hkeys
    show pushAllTagged (upd tq (pairKey tv) (tq (pairKey tv) ++ objects)) rest objects k = _
    rw [ih hkeys.2]
    simp only [List.map_cons, List.mem_cons, upd]
    by_cases hkv : k = pairKey tv
    · subst hkv
      rw [if_neg hkeys.1, if_pos (Or.inl rfl), if_pos rfl]
    · by_cases hk : k ∈ rest.map pairKey
      · rw [if_pos hk, if_pos (Or.inr hk), if_neg hkv]
      · rw [if_neg hk, if_neg hkv,
          if_neg (show ¬(k = pairKey tv ∨ k ∈ rest.map pairKey) by tauto)]

theorem wf_queueTagged {s : Store} {tags : List (String × String)}
    {objects : List String} {d : Int} (h : WF s)
    (hfields : (tags.map Prod.fst).Nodup) (hkeys : (tags.map pairKey).Nodup) :
    WF (queueTagged s tags objects d).1 := by
  by_cases h0 : objects = []
  · simp only [queueTagged, if_pos h0]
    exact h
  by_cases h1 : (saddAll [] objects).filter (fun o => o ∉ s.all) = []
  · simp only [queueTagged, if_neg h0, if_pos h1]
    exact h
  simp only [queueTagged, if_neg h0, if_neg h1]
  set new := (saddAll [] objects).filter (fun o => o ∉ s.all) with hnewdef
  have hnodupNew : new.Nodup := (nodup_saddAll List.nodup_nil objects).filter _
  have hnotall : ∀ o ∈ new, o ∉ s.all := by
    intro o ho
    have := List.of_mem_filter ho
    simpa using this
  have hnqd : ∀ o ∈ new, o ∉ s.queued := fun o ho hq =>
    hnotall o ho ((h.all_iff o).mpr (Or.inl hq))
  have hnq : ∀ o ∈ new, o ∉ s.queue := fun o ho hq =>
    hnqd o ho ((h.queued_iff o).mpr hq)
  have hnc : ∀ o ∈ new, o ∉ s.claimed := fun o ho hc =>
    hnotall o ho ((h.all_iff o).mpr (Or.inr (Or.inl hc)))
  have hndel : ∀ o ∈ new, o ∉ s.delayedQueue := fun o ho hc =>
    hnotall o ho ((h.all_iff o).mpr (Or.inr (Or.inr hc)))
  have htags0 : ∀ o ∈ new, s.tags o = [] := fun o ho =>
    h.tags_untracked o (hnotall o ho)
  have hntq : ∀ k, ∀ o ∈ new, o ∉ s.taggedQueue k := fun k o ho ht =>
    hnq o ho (h.tq_sub_queue k o ht)
  have hmemAll : ∀ x, x ∈ saddAll s.all new ↔ x ∈ s.all ∨ x ∈ new :=
    fun x => mem_saddAll
  have hmemQd : ∀ x, x ∈ saddAll s.queued new ↔ x ∈ s.queued ∨ x ∈ new :=
    fun x => mem_saddAll
  have htagsNew : ∀ o ∈ new, hsetAll (s.tags o) tags = tags := fun o ho => by
    rw [htags0 o ho, hsetAll_nil hfields]
  have hsess : ∀ o, s.session o ≠ none → o ∈ s.claimed := h.session_claimed
  by_cases hd : d > 0
  · -- delayed placement, no tagged-queue push
    simp only [if_pos hd, if_neg (show ¬ d ≤ 0 by omega)]
    by_cases htg : tags = []
    · simp only [if_pos htg]
      refine
        { nodupAll := nodup_saddAll h.nodupAll new,
          nodupQueue := h.nodupQueue, nodupQueued := h.nodupQueued,
          nodupClaimed := h.nodupClaimed, nodupDelayed := ?_,
          queued_iff := h.queued_iff, all_iff := ?_,
          queued_claimed := h.queued_claimed, queued_delayed := ?_,
          claimed_delayed := ?_, session_claimed := hsess,
          tq_sub_queue := h.tq_sub_queue, tq_nodup := h.tq_nodup,
          tq_key := h.tq_key, tags_untracked := ?_,
          tags_keys_nodup := h.tags_keys_nodup }
      · rw [List.nodup_append]
        exact ⟨h.nodupDelayed, hnodupNew, fun x hx hxn => hndel x hxn hx⟩
      · intro o
        rw [hmemAll o, h.all_iff o, List.mem_append]
        tauto
      · intro o ho
        rw [List.mem_append]
        rintro (hc | hc)
        · exact h.queued_delayed o ho hc
        · exact hnqd o hc ho
      · intro o ho
        rw [List.mem_append]
        rintro (hc | hc)
        · exact h.claimed_delayed o ho hc
        · exact hnc o hc ho
      · intro o ho
        rw [hmemAll o] at ho
        exact h.tags_untracked o (fun ha => ho (Or.inl ha))
    · simp only [if_neg htg]
      refine
        { nodupAll := nodup_saddAll h.nodupAll new,
          nodupQueue := h.nodupQueue, nodupQueued := h.nodupQueued,
          nodupClaimed := h.nodupClaimed, nodupDelayed := ?_,
          queued_iff := h.queued_iff, all_iff := ?_,
          queued_claimed := h.queued_claimed, queued_delayed := ?_,
          claimed_delayed := ?_, session_claimed := hsess,
          tq_sub_queue := h.tq_sub_queue, tq_nodup := h.tq_nodup,
          tq_key := ?_, tags_untracked := ?_, tags_keys_nodup := ?_ }
      · rw [List.nodup_append]
        exact ⟨h.nodupDelayed, hnodupNew, fun x hx hxn => hndel x hxn hx⟩
      · intro o
        rw [hmemAll o, h.all_iff o, List.mem_append]
        tauto
      · intro o ho
        rw [List.mem_append]
        rintro (hc | hc)
        · exact h.queued_delayed o ho hc
        · exact hnqd o hc ho
      · intro o ho
        rw [List.mem_append]
        rintro (hc | hc)
        · exact h.claimed_delayed o ho hc
        · exact hnc o hc ho
      · intro k o ho
        have hno : o ∉ new := fun hn => hntq k o hn ho
        simp only [if_neg hno]
        exact h.tq_key k o ho
      · intro o ho
        rw [hmemAll o] at ho
        have hno : o ∉ new := fun hn => ho (Or.inr hn)
        simp only [if_neg hno]
        exact h.tags_untracked o (fun ha => ho (Or.inl ha))
      · intro o
        by_cases hno : o ∈ new
        · simp only [if_pos hno, htagsNew o hno]
          exact hkeys
        · simp only [if_neg hno]
          exact h.tags_keys_nodup o
  · -- immediate placement in the queue
    simp only [if_neg hd, if_pos (show d ≤ 0 by omega)]
    have hnodupQueue : (s.queue ++ new).Nodup := by
      rw [List.nodup_append]
      exact ⟨h.nodupQueue, hnodupNew, fun x hx hxn => hnq x hxn hx⟩
    by_cases htg : tags = []
    · simp only [if_pos htg]
      refine
        { nodupAll := nodup_saddAll h.nodupAll new,
          nodupQueue := hnodupQueue,
          nodupQueued := nodup_saddAll h.nodupQueued new,
          nodupClaimed := h.nodupClaimed, nodupDelayed := h.nodupDelayed,
          queued_iff := ?_, all_iff := ?_,
          queued_claimed := ?_, queued_delayed := ?_,
          claimed_delayed := h.claimed_delayed, session_claimed := hsess,
          tq_sub_queue := ?_, tq_nodup := h.tq_nodup,
          tq_key := h.tq_key, tags_untracked := ?_,
          tags_keys_nodup := h.tags_keys_nodup }
      · intro o
        rw [hmemQd o, List.mem_append, h.queued_iff o]
      · intro o
        rw [hmemAll o, h.all_iff o, hmemQd o]
        tauto
      · intro o ho
        rcases (hmemQd o).mp ho with hq | hq
        · exact h.queued_claimed o hq
        · exact hnc o hq
      · intro o ho
        rcases (hmemQd o).mp ho with hq | hq
        · exact h.queued_delayed o hq
        · exact hndel o hq
      · intro k o ho
        exact List.mem_append_left _ (h.tq_sub_queue k o ho)
      · intro o ho
        rw [hmemAll o] at ho
        exact h.tags_untracked o (fun ha => ho (Or.inl ha))
    · simp only [if_neg htg]
      have htq : ∀ k, pushAllTagged s.taggedQueue tags new k =
          if k ∈ tags.map pairKey then s.taggedQueue k ++ new else s.taggedQueue k :=
        pushAllTagged_apply hkeys
      refine
        { nodupAll := nodup_saddAll h.nodupAll new,
          nodupQueue := hnodupQueue,
          nodupQueued := nodup_saddAll h.nodupQueued new,
          nodupClaimed := h.nodupClaimed, nodupDelayed := h.nodupDelayed,
          queued_iff := ?_, all_iff := ?_,
          queued_claimed := ?_, queued_delayed := ?_,
          claimed_delayed := h.claimed_delayed, session_claimed := hsess,
          tq_sub_queue := ?_, tq_nodup := ?_,
          tq_key := ?_, tags_untracked := ?_, tags_keys_nodup := ?_ }
      · intro o
        rw [hmemQd o, List.mem_append, h.queued_iff o]
      · intro o
        rw [hmemAll o, h.all_iff o, hmemQd o]
        tauto
      · intro o ho
        rcases (hmemQd o).mp ho with hq | hq
        · exact h.queued_claimed o hq
        · exact hnc o hq
      · intro o ho
        rcases (hmemQd o).mp ho with hq | hq
        · exact h.queued_delayed o hq
        · exact hndel o hq
      · intro k o ho
        dsimp only at ho ⊢
        rw [htq k] at ho
        rw [List.mem_append]
        split at ho
        · rcases List.mem_append.mp ho with ho | ho
          · exact Or.inl (h.tq_sub_queue k o ho)
          · exact Or.inr ho
        · exact Or.inl (h.tq_sub_queue k o ho)
      · intro k
        dsimp only
        rw [htq k]
        split
        · rw [List.nodup_append]
          exact ⟨h.tq_nodup k, hnodupNew, fun x hx hxn => hntq k x hxn hx⟩
        · exact h.tq_nodup k
      · intro k o ho
        dsimp only at ho ⊢
        rw [htq k] at ho
        by_cases hno : o ∈ new
        · simp only [if_pos hno, htagsNew o hno]
          split at ho
          · rename_i hk
            exact hk
          · exact absurd (h.tq_sub_queue k o ho) (hnq o hno)
        · simp only [if_neg hno]
          split at ho
          · rcases List.mem_append.mp ho with ho | ho
            · exact h.tq_key k o ho
            · exact absurd ho hno
          · exact h.tq_key k o ho
      · intro o ho
        rw [hmemAll o] at ho
        have hno : o ∉ new := fun hn => ho (Or.inr hn)
        simp only [if_neg hno]
        exact h.tags_untracked o (fun ha => ho (Or.inl ha))
      · intro o
        by_cases hno : o ∈ new
        · simp only [if_pos hno, htagsNew o hno]
          exact hkeys
        · simp only [if_neg hno]
          exact h.tags_keys_nodup o

/-- Well-formedness of the state produced by the shared bookkeeping section
of the `claim` script: remove the popped objects from `P:queued`, set their
session keys, remove them from the tagged queues listed in their tag hashes,
append them to `P:claimed`. `s1` is the state after the pop phase. -/
theorem wf_claimCommon {s : Store} (s1 : Store) {objects : List String} {sess : String}
    (h : WF s)
    (hnd : objects.Nodup)
    (hsub : ∀ o ∈ objects, o ∈ s.queue)
    (hq1 : ∀ x, x ∈ s1.queue ↔ x ∈ s.queue ∧ x ∉ objects)
    (hq1nd : s1.queue.Nodup)
    (hall : s1.all = s.all) (hqd : s1.queued = s.queued)
    (hcl : s1.claimed = s.claimed) (hdel : s1.delayedQueue = s.delayedQueue)
    (hses : s1.session = s.session) (htg : s1.tags = s.tags)
    (htqn : ∀ k, (s1.taggedQueue k).Nodup)
    (htqs : ∀ k x, x ∈ s1.taggedQueue k → x ∈ s.taggedQueue k) :
    WF { s1 with
         queued := s1.queued.filter (fun o => o ∉ objects),
         session := fun o => if o ∈ objects then some sess else s1.session o,
         taggedQueue := eraseTagged s1.taggedQueue s1.tags objects,
         claimed := s1.claimed ++ objects } := by
  have hqcl : ∀ o ∈ objects, o ∈ s.queued := fun o ho =>
    (h.queued_iff o).mpr (hsub o ho)
  have hncl : ∀ o ∈ objects, o ∉ s.claimed := fun o ho =>
    h.queued_claimed o (hqcl o ho)
  have hndel : ∀ o ∈ objects, o ∉ s.delayedQueue := fun o ho =>
    h.queued_delayed o (hqcl o ho)
  have hmemc : ∀ x, x ∈ s1.claimed ++ objects ↔ x ∈ s.claimed ∨ x ∈ objects := by
    intro x
    rw [List.mem_append, hcl]
  have hmemqd : ∀ x, x ∈ s1.queued.filter (fun o => o ∉ objects) ↔
      x ∈ s.queued ∧ x ∉ objects := by
    intro x
    rw [List.mem_filter, hqd]
    simp
  have hmemtq : ∀ k x, x ∈ eraseTagged s1.taggedQueue s1.tags objects k ↔
      x ∈ s1.taggedQueue k ∧ ¬(x ∈ objects ∧ k ∈ (s1.tags x).map pairKey) :=
    fun k x => mem_eraseTagged htqn
  refine
    { nodupAll := hall ▸ h.nodupAll, nodupQueue := hq1nd,
      nodupQueued := hqd ▸ (h.nodupQueued.filter _),
      nodupClaimed := ?_, nodupDelayed := hdel ▸ h.nodupDelayed,
      queued_iff := ?_, all_iff := ?_, queued_claimed := ?_,
      queued_delayed := ?_, claimed_delayed := ?_, session_claimed := ?_,
      tq_sub_queue := ?_, tq_nodup := fun k => nodup_eraseTagged htqn k,
      tq_key := ?_, tags_untracked := ?_, tags_keys_nodup := ?_ }
  · rw [List.nodup_append, hcl]
    exact ⟨h.nodupClaimed, hnd, fun x hx hxo => hncl x hxo hx⟩
  · intro o
    rw [hmemqd o, hq1 o, h.queued_iff o]
  · intro o
    rw [hall, hmemqd o, hmemc o, hdel, h.all_iff o]
    by_cases hoo : o ∈ objects
    · have := hqcl o hoo
      tauto
    · tauto
  · intro o ho
    rw [hmemc o]
    have := (hmemqd o).mp ho
    push_neg
    exact ⟨h.queued_claimed o this.1, this.2⟩
  · intro o ho
    rw [hdel]
    exact h.queued_delayed o ((hmemqd o).mp ho).1
  · intro o ho
    rw [hdel]
    rcases (hmemc o).mp ho with hc | hc
    · exact h.claimed_delayed o hc
    · exact hndel o hc
  · intro o ho
    rw [hmemc o]
    by_cases hoo : o ∈ objects
    · exact Or.inr hoo
    · simp only [if_neg hoo, hses] at ho
      exact Or.inl (h.session_claimed o ho)
  · intro k o ho
    have hm := (hmemtq k o).mp ho
    have hosq : o ∈ s.taggedQueue k := htqs k o hm.1
    have hoq : o ∈ s.queue := h.tq_sub_queue k o hosq
    rw [hq1 o]
    refine ⟨hoq, fun hoo => hm.2 ⟨hoo, ?_⟩⟩
    rw [htg]
    exact h.tq_key k o hosq
  · intro k o ho
    rw [htg]
    have hm := (hmemtq k o).mp ho
    rw [htg] at hm
    exact h.tq_key k o (htqs k o ((hmemtq k o).mp ho).1)
  · intro o ho
    rw [htg]
    rw [hall] at ho
    exact h.tags_untracked o ho
  · intro o
    rw [htg]
    exact h.tags_keys_nodup o

theorem wf_claim {s : Store} {maxCount expirationSeconds : Nat}
    {sess tag : String} (h : WF s) :
    WF (claim s maxCount expirationSeconds sess tag).1 := by
  unfold claim
  split
  · exact h
  unfold claimScript
  by_cases hpath : tag = "" ∨ maxCount < 2
  · simp only [if_pos hpath]
    match hq : s.queue with
    | [] => exact h
    | q0 :: qrest =>
      dsimp only
      rw [← hq]
      have hnodup : s.queue.Nodup := h.nodupQueue
      have hsplit : s.queue.take maxCount ++ s.queue.drop maxCount = s.queue :=
        List.take_append_drop maxCount s.queue
      have hdisj : ∀ x, x ∈ s.queue.drop maxCount → x ∉ s.queue.take maxCount := by
        intro x hxd hxt
        have := hsplit ▸ hnodup
        rw [List.nodup_append] at this
        exact this.2.2 hxt hxd
    -- the state after the pop phase
      refine wf_claimCommon { s with queue := s.queue.drop maxCount } h
        (hnodup.sublist (List.take_sublist maxCount s.queue))
        (fun o ho => List.mem_of_mem_take ho) ?_
        (hnodup.sublist (List.drop_sublist maxCount s.queue))
        rfl rfl rfl rfl rfl rfl (fun k => h.tq_nodup k) (fun k x hx => hx)
      intro x
      constructor
      · intro hx
        exact ⟨List.mem_of_mem_drop hx, hdisj x hx⟩
      · rintro ⟨hx, hxt⟩
        rcases List.mem_append.mp (hsplit ▸ hx) with hx' | hx'
        · exact absurd hx' hxt
        · exact hx'
  · simp only [if_neg hpath]
    match hq : s.queue with
    | [] => exact h
    | q0 :: qrest =>
      dsimp only
      have hnodup : (q0 :: qrest).Nodup := hq ▸ h.nodupQueue
      have hq0 : q0 ∉ qrest := (List.nodup_cons.mp hnodup).1
      have hrestnd : qrest.Nodup := (List.nodup_cons.mp hnodup).2
      match hv : hget (s.tags q0) tag with
      | none =>
        dsimp only
        refine wf_claimCommon { s with queue := qrest } h
          (List.nodup_cons.mpr ⟨List.not_mem_nil q0, List.nodup_nil⟩)
          (fun o ho => by
            rcases List.mem_singleton.mp ho with rfl
            rw [hq]; exact List.mem_cons_self _ _) ?_
          hrestnd rfl rfl rfl rfl rfl rfl (fun k => h.tq_nodup k)
          (fun k x hx => hx)
        intro x
        rw [hq]
        simp only [List.mem_cons, List.not_mem_nil, or_false]
        constructor
        · intro hx
          exact ⟨Or.inr hx, fun hx0 => hq0 (hx0 ▸ hx)⟩
        · rintro ⟨hx | hx, hxn⟩
          · exact absurd hx hxn
          · exact hx
      | some v =>
        dsimp only
        set k0 := pairTagValue tag v with hk0
        set tq := (s.taggedQueue k0).erase q0 with htqdef
        set restObjects := tq.take (maxCount - 1) with hrodef
        have htqnd : tq.Nodup := (h.tq_nodup k0).erase q0
        have hq0tq : q0 ∉ tq := (h.tq_nodup k0).not_mem_erase
        have hronodup : restObjects.Nodup :=
          htqnd.sublist (List.take_sublist _ tq)
        have hro_tq : ∀ x ∈ restObjects, x ∈ tq := fun x hx =>
          List.mem_of_mem_take hx
        have hro_queue : ∀ x ∈ restObjects, x ∈ s.queue := fun x hx =>
          h.tq_sub_queue k0 x (List.mem_of_mem_erase (hro_tq x hx))
        have hq0ro : q0 ∉ restObjects := fun hx => hq0tq (hro_tq q0 hx)
        have hro_rest : ∀ x ∈ restObjects, x ∈ qrest := by
          intro x hx
          have := hq ▸ hro_queue x hx
          rcases List.mem_cons.mp this with rfl | hx'
          · exact absurd hx hq0ro
          · exact hx'
        refine wf_claimCommon
          { s with
            queue := eraseEach qrest restObjects,
            taggedQueue := upd s.taggedQueue k0 (tq.drop (maxCount - 1)) } h
          (List.nodup_cons.mpr ⟨hq0ro, hronodup⟩)
          (fun o ho => by
            rcases List.mem_cons.mp ho with rfl | ho'
            · rw [hq]; exact List.mem_cons_self _ _
            · exact hro_queue o ho') ?_
          (nodup_eraseEach hrestnd restObjects)
          rfl rfl rfl rfl rfl rfl ?_ ?_
        · intro x
          rw [mem_eraseEach hrestnd, hq]
          simp only [List.mem_cons]
          constructor
          · rintro ⟨hx, hxro⟩
            refine ⟨Or.inr hx, ?_⟩
            rintro (rfl | hxro')
            · exact hq0 hx
            · exact hxro hxro'
          · rintro ⟨hx | hx, hxn⟩
            · exact absurd (Or.inl hx) hxn
            · exact ⟨hx, fun hxro => hxn (Or.inr hxro)⟩
        · intro k
          by_cases hkk : k = k0
          · simp only [upd, if_pos hkk]
            exact htqnd.sublist (List.drop_sublist _ tq)
          · simp only [upd, if_neg hkk]
            exact h.tq_nodup k
        · intro k x hx
          by_cases hkk : k = k0
          · simp only [upd, if_pos hkk] at hx
            rw [hkk]
            exact List.mem_of_mem_erase (List.mem_of_mem_drop hx)
          · simp only [upd, if_neg hkk] at hx
            exact hx

theorem wf_cleanExpired {s : Store} (h : WF s) : WF (cleanExpired s).1 := by
  simp only [cleanExpired]
  by_cases h0 : gonePrefixLen (fun o => (s.session o).isNone) s.claimed = 0
  · rw [if_pos h0]
    exact h
  rw [if_neg h0]
  dsimp only
  set p : String → Bool := fun o => (s.session o).isNone with hp
  set total := gonePrefixLen p s.claimed with htotal
  have htake : s.claimed.take total = s.claimed.takeWhile p :=
    take_gonePrefixLen p s.claimed
  have hdrop : s.claimed.drop total = s.claimed.dropWhile p :=
    drop_gonePrefixLen p s.claimed
  set popped := s.claimed.take total with hpop
  set remaining := s.claimed.drop total with hrem
  have hsplitc : popped ++ remaining = s.claimed :=
    List.take_append_drop total s.claimed
  have hpopnd : popped.Nodup := h.nodupClaimed.sublist (List.take_sublist _ _)
  have hremnd : remaining.Nodup := h.nodupClaimed.sublist (List.drop_sublist _ _)
  have hdisj : ∀ x ∈ remaining, x ∉ popped := by
    intro x hxr hxp
    have := hsplitc ▸ h.nodupClaimed
    rw [List.nodup_append] at this
    exact this.2.2 hxp hxr
  have hpop_cl : ∀ x ∈ popped, x ∈ s.claimed := fun x hx =>
    List.mem_of_mem_take hx
  have hrem_cl : ∀ x ∈ remaining, x ∈ s.claimed := fun x hx =>
    List.mem_of_mem_drop hx
  have hpop_nq : ∀ x ∈ popped, x ∉ s.queue := fun x hx hq =>
    h.queued_claimed x ((h.queued_iff x).mpr hq) (hpop_cl x hx)
  have hpop_ndel : ∀ x ∈ popped, x ∉ s.delayedQueue := fun x hx =>
    h.claimed_delayed x (hpop_cl x hx)
  have hpop_none : ∀ x ∈ popped, s.session x = none := by
    intro x hx
    rw [htake] at hx
    have := List.mem_takeWhile_imp hx
    rw [hp] at this
    exact Option.isNone_iff_eq_none.mp this
  have hmemqd : ∀ x, x ∈ saddAll s.queued popped ↔ x ∈ s.queued ∨ x ∈ popped :=
    fun x => mem_saddAll
  have hmemcl : ∀ x, x ∈ s.claimed ↔ x ∈ popped ∨ x ∈ remaining := by
    intro x
    rw [← hsplitc, List.mem_append]
  have htq : ∀ k, pushTagged s.taggedQueue s.tags popped k =
      s.taggedQueue k ++ popped.filter (fun o => k ∈ (s.tags o).map pairKey) :=
    pushTagged_apply (fun o _ => h.tags_keys_nodup o)
  refine
    { nodupAll := h.nodupAll, nodupQueue := ?_,
      nodupQueued := nodup_saddAll h.nodupQueued popped,
      nodupClaimed := hremnd, nodupDelayed := h.nodupDelayed,
      queued_iff := ?_, all_iff := ?_, queued_claimed := ?_,
      queued_delayed := ?_, claimed_delayed := ?_, session_claimed := ?_,
      tq_sub_queue := ?_, tq_nodup := ?_, tq_key := ?_,
      tags_untracked := h.tags_untracked, tags_keys_nodup := h.tags_keys_nodup }
  · rw [List.nodup_append]
    exact ⟨h.nodupQueue, hpopnd, fun x hx hxp => hpop_nq x hxp hx⟩
  · intro o
    rw [hmemqd o, List.mem_append, h.queued_iff o]
  · intro o
    rw [h.all_iff o, hmemqd o, hmemcl o]
    tauto
  · intro o ho hr
    rcases (hmemqd o).mp ho with hq | hq
    · exact h.queued_claimed o hq (hrem_cl o hr)
    · exact hdisj o hr hq
  · intro o ho
    rcases (hmemqd o).mp ho with hq | hq
    · exact h.queued_delayed o hq
    · exact hpop_ndel o hq
  · intro o ho
    exact h.claimed_delayed o (hrem_cl o ho)
  · intro o ho
    have hc := h.session_claimed o ho
    rcases (hmemcl o).mp hc with hc' | hc'
    · exact absurd (hpop_none o hc') ho
    · exact hc'
  · intro k o ho
    dsimp only at ho ⊢
    rw [htq k, List.mem_append] at ho
    rw [List.mem_append]
    rcases ho with ho | ho
    · exact Or.inl (h.tq_sub_queue k o ho)
    · exact Or.inr (List.mem_of_mem_filter ho)
  · intro k
    dsimp only
    rw [htq k, List.nodup_append]
    refine ⟨h.tq_nodup k, hpopnd.filter _, ?_⟩
    intro x hx hxf
    exact hpop_nq x (List.mem_of_mem_filter hxf) (h.tq_sub_queue k x hx)
  · intro k o ho
    dsimp only at ho ⊢
    rw [htq k, List.mem_append] at ho
    rcases ho with ho | ho
    · exact h.tq_key k o ho
    · have := List.of_mem_filter ho
      exact of_decide_eq_true this

theorem wf_cleanDelayed {s : Store} (h : WF s) : WF (cleanDelayed s).1 := by
  simp only [cleanDelayed]
  by_cases h0 : gonePrefixLen (fun o => !(s.delay o)) s.delayedQueue = 0
  · rw [if_pos h0]
    exact h
  rw [if_neg h0]
  dsimp only
  set p : String → Bool := fun o => !(s.delay o) with hp
  set total := gonePrefixLen p s.delayedQueue with htotal
  set popped := s.delayedQueue.take total with hpop
  set remaining := s.delayedQueue.drop total with hrem
  have hsplitc : popped ++ remaining = s.delayedQueue :=
    List.take_append_drop total s.delayedQueue
  have hpopnd : popped.Nodup := h.nodupDelayed.sublist (List.take_sublist _ _)
  have hremnd : remaining.Nodup := h.nodupDelayed.sublist (List.drop_sublist _ _)
  have hdisj : ∀ x ∈ remaining, x ∉ popped := by
    intro x hxr hxp
    have := hsplitc ▸ h.nodupDelayed
    rw [List.nodup_append] at this
    exact this.2.2 hxp hxr
  have hpop_dl : ∀ x ∈ popped, x ∈ s.delayedQueue := fun x hx =>
    List.mem_of_mem_take hx
  have hrem_dl : ∀ x ∈ remaining, x ∈ s.delayedQueue := fun x hx =>
    List.mem_of_mem_drop hx
  have hpop_nq : ∀ x ∈ popped, x ∉ s.queue := fun x hx hq =>
    h.queued_delayed x ((h.queued_iff x).mpr hq) (hpop_dl x hx)
  have hpop_ncl : ∀ x ∈ popped, x ∉ s.claimed := fun x hx hc =>
    h.claimed_delayed x hc (hpop_dl x hx)
  have hmemqd : ∀ x, x ∈ saddAll s.queued popped ↔ x ∈ s.queued ∨ x ∈ popped :=
    fun x => mem_saddAll
  have hmemdl : ∀ x, x ∈ s.delayedQueue ↔ x ∈ popped ∨ x ∈ remaining := by
    intro x
    rw [← hsplitc, List.mem_append]
  have htq : ∀ k, pushTagged s.taggedQueue s.tags popped k =
      s.taggedQueue k ++ popped.filter (fun o => k ∈ (s.tags o).map pairKey) :=
    pushTagged_apply (fun o _ => h.tags_keys_nodup o)
  refine
    { nodupAll := h.nodupAll, nodupQueue := ?_,
      nodupQueued := nodup_saddAll h.nodupQueued popped,
      nodupClaimed := h.nodupClaimed, nodupDelayed := hremnd,
      queued_iff := ?_, all_iff := ?_, queued_claimed := ?_,
      queued_delayed := ?_, claimed_delayed := ?_, session_claimed := ?_,
      tq_sub_queue := ?_, tq_nodup := ?_, tq_key := ?_,
      tags_untracked := h.tags_untracked, tags_keys_nodup := h.tags_keys_nodup }
  · rw [List.nodup_append]
    exact ⟨h.nodupQueue, hpopnd, fun x hx hxp => hpop_nq x hxp hx⟩
  · intro o
    rw [hmemqd o, List.mem_append, h.queued_iff o]
  · intro o
    rw [h.all_iff o, hmemqd o, hmemdl o]
    tauto
  · intro o ho hc
    rcases (hmemqd o).mp ho with hq | hq
    · exact h.queued_claimed o hq hc
    · exact hpop_ncl o hq hc
  · intro o ho hr
    rcases (hmemqd o).mp ho with hq | hq
    · exact h.queued_delayed o hq (hrem_dl o hr)
    · exact hdisj o hr hq
  · intro o ho hr
    exact h.claimed_delayed o ho (hrem_dl o hr)
  · intro o ho
    exact h.session_claimed o ho
  · intro k o ho
    dsimp only at ho ⊢
    rw [htq k, List.mem_append] at ho
    rw [List.mem_append]
    rcases ho with ho | ho
    · exact Or.inl (h.tq_sub_queue k o ho)
    · exact Or.inr (List.mem_of_mem_filter ho)
  · intro k
    dsimp only
    rw [htq k, List.nodup_append]
    refine ⟨h.tq_nodup k, hpopnd.filter _, ?_⟩
    intro x hx hxf
    exact hpop_nq x (List.mem_of_mem_filter hxf) (h.tq_sub_queue k x hx)
  · intro k o ho
    dsimp only at ho ⊢
    rw [htq k, List.mem_append] at ho
    rcases ho with ho | ho
    · exact h.tq_key k o ho
    · have := List.of_mem_filter ho
      exact of_decide_eq_true this

/-- Every reachable store state is well-formed. -/
theorem wf_reachable {s : Store} (h : Reachable s) : WF s := by
  induction h with
  | init => exact wf_init
  | queueTagged tags objects d hfields hkeys hs ih => exact wf_queueTagged ih hfields hkeys
  | claim maxCount expirationSeconds sess tag hs ih => exact wf_claim ih
  | extend objects sess e hnd heq hs ih => exact wf_extend ih hnd heq
  | release objects sess hnd heq hs ih => exact wf_release ih heq
  | requeue objects sess d hnd heq hs ih => exact wf_requeue ih hnd heq
  | cleanExpired hs ih => exact wf_cleanExpired ih
  | cleanDelayed hs ih => exact wf_cleanDelayed ih
  | expireSession o hs ih => exact wf_expireSession ih o
  | expireDelay o hs ih => exact wf_expireDelay ih o

/-! ## Guard-failure lemmas: the session check of `extend`/`release`/`requeue` -/

theorem extend_guard_fails {s : Store} {objects : List String} {sess : String}
    (e : Nat) (hne : objects ≠ [])
    (hstale : ∃ o ∈ objects, s.session o ≠ some sess) :
    extend s objects sess e = some (s, false) := by
  obtain ⟨o, ho, hs⟩ := hstale
  have hguard : ¬ (objects.all fun o => s.session o = some sess) := fun hall =>
    hs (of_decide_eq_true (List.all_eq_true.mp hall o ho))
  unfold extend
  rw [if_neg hne, if_pos hguard]

theorem release_guard_fails {s : Store} {objects : List String} {sess : String}
    (hne : objects ≠ [])
    (hstale : ∃ o ∈ objects, s.session o ≠ some sess) :
    release s objects sess = some (s, false) := by
  obtain ⟨o, ho, hs⟩ := hstale
  have hguard : ¬ (objects.all fun o => s.session o = some sess) := fun hall =>
    hs (of_decide_eq_true (List.all_eq_true.mp hall o ho))
  unfold release
  rw [if_neg hne, if_pos hguard]

theorem requeue_guard_fails {s : Store} {objects : List String} {sess : String}
    (d : Int) (hne : objects ≠ [])
    (hstale : ∃ o ∈ objects, s.session o ≠ some sess) :
    requeue s objects sess d = some (s, false, false) := by
  obtain ⟨o, ho, hs⟩ := hstale
  have hguard : ¬ (objects.all fun o => s.session o = some sess) := fun hall =>
    hs (of_decide_eq_true (List.all_eq_true.mp hall o ho))
  unfold requeue
  rw [if_neg hne, if_pos hguard]

/-! ## Filtering commutes with first-occurrence deduplication -/

theorem filter_saddAll (p : String → Bool) (objects : List String) :
    ∀ acc, (saddAll acc objects).filter p = saddAll (acc.filter p) (objects.filter p) := by
  induction objects with
  | nil => intro acc; rfl
  | cons o os ih =>
    intro acc
    show (saddAll (sadd acc o) os).filter p = _
    rw [ih (sadd acc o)]
    have hfs : (sadd acc o).filter p =
        if p o then sadd (acc.filter p) o else acc.filter p := by
      unfold sadd
      by_cases hm : o ∈ acc
      · rw [if_pos hm]
        by_cases hp : p o
        · rw [if_pos hp, if_pos (List.mem_filter.mpr ⟨hm, hp⟩)]
        · rw [if_neg hp]
      · rw [if_neg hm, List.filter_append]
        by_cases hp : p o
        · rw [if_pos hp, if_neg (fun hmf => hm (List.mem_filter.mp hmf).1)]
          simp [hp]
        · rw [if_neg hp]
          simp [hp]
    by_cases hp : p o
    · rw [hfs, if_pos hp, List.filter_cons_of_pos hp]
      rfl
    · rw [hfs, if_neg hp, List.filter_cons_of_neg hp]

theorem dedup_filter_comm (objects : List String) (p : String → Bool) :
    (saddAll [] objects).filter p = (objects.filter p).foldl sadd [] := by
  rw [filter_saddAll p objects []]
  rfl

/-! ## A characterization of `cleanExpired` -/

theorem cleanExpired_char (s : Store) :
    (cleanExpired s).2.1 = s.claimed.takeWhile (fun o => (s.session o).isNone) ∧
    (cleanExpired s).1.claimed = s.claimed.dropWhile (fun o => (s.session o).isNone) ∧
    (cleanExpired s).1.queue = s.queue ++ (cleanExpired s).2.1 ∧
    (cleanExpired s).1.queued = saddAll s.queued (cleanExpired s).2.1 ∧
    (cleanExpired s).1.taggedQueue = pushTagged s.taggedQueue s.tags (cleanExpired s).2.1 ∧
    ((cleanExpired s).2.2 = true ↔ (cleanExpired s).2.1 ≠ []) := by
  simp only [cleanExpired]
  by_cases h0 : gonePrefixLen (fun o => (s.session o).isNone) s.claimed = 0
  · rw [if_pos h0]
    have htw : s.claimed.takeWhile (fun o => (s.session o).isNone) = [] := by
      rw [← take_gonePrefixLen, h0, List.take_zero]
    have hdw : s.claimed.dropWhile (fun o => (s.session o).isNone) = s.claimed := by
      rw [← drop_gonePrefixLen, h0, List.drop_zero]
    refine ⟨htw.symm, hdw.symm, by simp, rfl, rfl, by simp⟩
  · rw [if_neg h0]
    have htw : s.claimed.take (gonePrefixLen (fun o => (s.session o).isNone) s.claimed) =
        s.claimed.takeWhile (fun o => (s.session o).isNone) :=
      take_gonePrefixLen _ _
    have hdw : s.claimed.drop (gonePrefixLen (fun o => (s.session o).isNone) s.claimed) =
        s.claimed.dropWhile (fun o => (s.session o).isNone) :=
      drop_gonePrefixLen _ _
    have hne : s.claimed.take (gonePrefixLen (fun o => (s.session o).isNone) s.claimed) ≠ [] := by
      rw [htw]
      cases hc : s.claimed with
      | nil => rw [hc] at h0; simp [gonePrefixLen] at h0
      | cons o rest =>
        rw [hc] at h0
        by_cases hg : (s.session o).isNone
        · simp [List.takeWhile_cons, hg]
        · simp [gonePrefixLen, hg] at h0
    exact ⟨htw, hdw, rfl, rfl, rfl, by simp [hne]⟩

/-! ## The claims -/

/-- C1 (counterexample): the partition invariant as stated — with the
delayed sub-state read as "objects that have a `P:delay:<o>` key" and no
restriction on the operations' object lists — fails on reachable states.
(a) After `queueTagged({},["a"],5)`, expiry of `P:delay:a`, and the atomic
`cleanExpired`, the object `"a"` is in `P:all` but in none of the three
sub-states, because its delay key is gone while it still sits in
`P:delayed-queue`. (b) `extend` with a duplicated object list followed by
`release` leaves `"a"` in `P:claimed` but not in `P:all`, so even the
delayed-queue reading fails without duplicate-free object lists.
(c) Likewise for tag records whose `<tag>:<value>` strings collide. -/
theorem poolState_partition_counterexample :
    Reachable delayExpiredAStore ∧
    ("a" ∈ delayExpiredAStore.all ∧ "a" ∉ delayExpiredAStore.queued ∧
      "a" ∉ delayExpiredAStore.claimed ∧ delayExpiredAStore.delay "a" = false) ∧
    ("a" ∈ dupExtendReleasedStore.claimed ∧ "a" ∉ dupExtendReleasedStore.all) ∧
    ("o1" ∈ collidingReleasedStore.claimed ∧ "o1" ∉ collidingReleasedStore.all) := by
  refine ⟨?_, by decide, by decide, by decide⟩
  exact Reachable.cleanExpired (Reachable.expireDelay "a"
    (Reachable.queueTagged [] ["a"] 5 (by decide) (by decide) Reachable.init))

/-- C1 (amended): for every reachable store state — atomic operations
invoked with duplicate-free object lists and tag records with distinct
fields and distinct derived tag-queue keys, plus arbitrary TTL expiry steps
— `P:all` equals the union of the set `P:queued`, the members of the list
`P:claimed` and the members of the list `P:delayed-queue` (the delayed
sub-state read from the delayed queue, not from the TTL-bound `P:delay`
keys), and the three sub-states are pairwise disjoint. -/
theorem poolState_partition {s : Store} (h : Reachable s) :
    (∀ o, o ∈ s.all ↔ o ∈ s.queued ∨ o ∈ s.claimed ∨ o ∈ s.delayedQueue) ∧
    (∀ o, o ∈ s.queued → o ∉ s.claimed) ∧
    (∀ o, o ∈ s.queued → o ∉ s.delayedQueue) ∧
    (∀ o, o ∈ s.claimed → o ∉ s.delayedQueue) :=
  let w := wf_reachable h
  ⟨w.all_iff, w.queued_claimed, w.queued_delayed, w.claimed_delayed⟩

theorem poolState_partition_witness :
    "a" ∈ claimedAStore.all ↔
      ("a" ∈ claimedAStore.queued ∨ "a" ∈ claimedAStore.claimed ∨
        "a" ∈ claimedAStore.delayedQueue) :=
  (poolState_partition
    (Reachable.claim 1 60 "S" ""
      (Reachable.queueTagged [] ["a"] 0 (by decide) (by decide) Reachable.init))).1 "a"

/-- C2 (counterexample): a successful `queueTagged` with `delaySeconds = 5`
publishes on `P:queued` even though the objects went to the delayed queue,
and a successful `requeue` with `delaySeconds = 3` also publishes —
contradicting the claim that delayed placements publish nothing until
promotion. -/
theorem publish_on_delay_counterexample :
    (queueTagged initStore [] ["a"] 5).2 = (["a"], true) ∧
    (queueTagged initStore [] ["a"] 5).1.delayedQueue = ["a"] ∧
    requeueDelayOut.2 = (true, true) ∧
    requeueDelayOut.1.delayedQueue = ["a"] := by decide

/-- C2 (amended): `queueTagged` publishes one message on `P:queued` exactly
when the returned `newObjects` list is non-empty, regardless of
`delaySeconds`, and a successful `requeue` always publishes one message,
also when `delaySeconds > 0`. -/
theorem publish_conditions :
    (∀ s tags objects d,
      ((queueTagged s tags objects d).2.2 = true ↔
        (queueTagged s tags objects d).2.1 ≠ [])) ∧
    (∀ s objects sess d out, requeue s objects sess d = some out →
      out.2.2 = out.2.1) := by
  constructor
  · intro s tags objects d
    by_cases h0 : objects = []
    · simp only [queueTagged, if_pos h0]
      simp
    by_cases h1 : (saddAll [] objects).filter (fun o => o ∉ s.all) = []
    · simp only [queueTagged, if_neg h0, if_pos h1]
      simp
    · simp only [queueTagged, if_neg h0, if_neg h1]
      exact ⟨fun _ => h1, fun _ => by trivial⟩
  · intro s objects sess d out heq
    unfold requeue at heq
    split at heq
    · exact absurd heq (by simp)
    split at heq
    · cases heq
      rfl
    · by_cases hd : d > 0
      · simp only [if_pos hd, if_neg (show ¬ d ≤ 0 by omega)] at heq
        cases heq
        rfl
      · simp only [if_neg hd, if_pos (show d ≤ 0 by omega)] at heq
        cases heq
        rfl

theorem publish_conditions_witness :
    requeueDelayOut.2.2 = requeueDelayOut.2.1 :=
  publish_conditions.2 claimedAStore ["a"] "S" 3 requeueDelayOut rfl

/-- C3 (code bug): a freshly constructed `Claim` starts in the `Claimed`
state with NO auto-extension timer armed — the `timeout` field is only set
inside `setState`, which never runs at construction — so a claim held
without any user action never fires an `extend`. The re-entry half of the
claim does hold: a successful `extend` passes through `Extending` back to
`Claimed` and arms the `ttl/2 = 15 s` timer, and any departure from
`Claimed` leaves the timer unarmed. -/
theorem claim_initial_timer_unarmed :
    (ClaimSM.new.state = ClaimState.claimed ∧ ClaimSM.new.timerArmed = false) ∧
    autoExtendDelayMS = 15000 ∧
    ClaimSM.new.extendStep true =
      some ({ state := ClaimState.claimed, timerArmed := true }, true) ∧
    ClaimSM.new.releaseStep true =
      some ({ state := ClaimState.released, timerArmed := false }, true) ∧
    ClaimSM.new.extendStep false =
      some ({ state := ClaimState.expired, timerArmed := false }, false) := by
  decide

/-- C4 (code bug): the `$claim` tick handler only invokes the claim
operation when the queue-seed configuration is non-empty; with the default
empty seed (`queue` option absent) every tick with `available > 0` produces
no claim call at all, contradicting the claim that the engine claims on
every such tick whether or not a seed is present. With a non-empty seed the
objects are (re-)queued and a claim is invoked. -/
theorem dispatch_tick_requires_seed :
    (∀ s maxClaimedCount claimedCount tags sess,
      dispatchTick s maxClaimedCount claimedCount [] tags sess = none) ∧
    dispatchTick initStore 1 0 [] [] "S" = none ∧
    (dispatchTick (queuePool initStore ["a"]).1 1 0 ["z"] [] "S").map
      (fun r => r.2) = some ["a"] := by
  refine ⟨?_, rfl, rfl⟩
  intro s maxClaimedCount claimedCount tags sess
  simp [dispatchTick]

/-- C5 (counterexample): on the tagged-batch scenario store, calling
`claim(10, 60, "x")` — passing the tag VALUE `"x"`, as the spec scenario
writes it — pops only `["a"]`: the script looks up field `"x"` in
`P:tags:a = {t: "x"}`, finds nothing, and falls back to the single head
object, leaving `P:queue = ["b","c","d","e"]`. -/
theorem taggedClaim_by_value_counterexample :
    (claim taggedScenarioStore 10 60 "S" "x").2 = ["a"] ∧
    (claim taggedScenarioStore 10 60 "S" "x").2 ≠ ["a", "b", "c", "e"] ∧
    (claim taggedScenarioStore 10 60 "S" "x").1.queue = ["b", "c", "d", "e"] := by
  decide

/-- C5 (amended): with the tag NAME `"t"` — `claim(10, 60, "t")` — the
scenario behaves exactly as claimed: the call returns
`["a","b","c","e"]` under one session, leaves `P:queue = ["d"]`, leaves
`P:tagged-queue:t:x` deleted (empty) and `P:tagged-queue:t:y = ["d"]`. -/
theorem taggedClaim_scenario :
    (claim taggedScenarioStore 10 60 "S" "t").2 = ["a", "b", "c", "e"] ∧
    (claim taggedScenarioStore 10 60 "S" "t").1.queue = ["d"] ∧
    (claim taggedScenarioStore 10 60 "S" "t").1.taggedQueue (pairTagValue "t" "x") = [] ∧
    (claim taggedScenarioStore 10 60 "S" "t").1.taggedQueue (pairTagValue "t" "y") = ["d"] := by
  decide

/-- C6: `queueTagged` returns `newObjects = objects \ P:all`, deduplicated
preserving the first-occurrence order of the input, and appends them in that
same order to `P:queue` (when `delaySeconds ≤ 0`) or to `P:delayed-queue`
(when `delaySeconds > 0`). `specNewObjects` is the spec-side description,
written independently of the script's SADD/SDIFF encoding. -/
theorem queueTagged_newObjects (s : Store) (tags : List (String × String))
    (objects : List String) (d : Int) :
    (queueTagged s tags objects d).2.1 = specNewObjects objects s.all ∧
    (if d > 0
      then (queueTagged s tags objects d).1.delayedQueue =
        s.delayedQueue ++ (queueTagged s tags objects d).2.1
      else (queueTagged s tags objects d).1.queue =
        s.queue ++ (queueTagged s tags objects d).2.1) := by
  have hspec : specNewObjects objects s.all =
      (saddAll [] objects).filter (fun o => o ∉ s.all) := by
    unfold specNewObjects dedupFirst
    exact (dedup_filter_comm objects _).symm
  by_cases h0 : objects = []
  · subst h0
    simp only [queueTagged, if_pos rfl]
    refine ⟨by rw [hspec]; rfl, ?_⟩
    split <;> simp
  by_cases h1 : (saddAll [] objects).filter (fun o => o ∉ s.all) = []
  · simp only [queueTagged, if_neg h0, if_pos h1]
    refine ⟨by rw [hspec, h1], ?_⟩
    split <;> simp
  simp only [queueTagged, if_neg h0, if_neg h1]
  refine ⟨by rw [hspec], ?_⟩
  by_cases hd : d > 0
  · simp only [if_pos hd, if_neg (show ¬ d ≤ 0 by omega)]
    split <;> rfl
  · simp only [if_neg hd, if_pos (show d ≤ 0 by omega)]
    split <;> rfl

/-- C7: for a non-empty object list and a session that at least one listed
object does not currently hold (missing or different `P:session:<o>` key),
`release` and `requeue` return false and leave the entire store state
unchanged — the returned store is the input store itself, and no message is
published. -/
theorem stale_session_noop {s : Store} {objects : List String} {sess : String}
    (hne : objects ≠ [])
    (hstale : ∃ o ∈ objects, s.session o ≠ some sess) :
    release s objects sess = some (s, false) ∧
    ∀ d, requeue s objects sess d = some (s, false, false) :=
  ⟨release_guard_fails hne hstale,
   fun d => requeue_guard_fails d hne hstale⟩

theorem stale_session_noop_witness :
    release expiredAStore ["a"] "S" = some (expiredAStore, false) ∧
    requeue expiredAStore ["a"] "S" 0 = some (expiredAStore, false, false) :=
  ⟨(stale_session_noop (by decide) ⟨"a", by decide, by decide⟩).1,
   (stale_session_noop (by decide) ⟨"a", by decide, by decide⟩).2 0⟩

/-- C8: `cleanExpired` pops exactly the maximal head prefix of `P:claimed`
whose `P:session:<o>` keys no longer exist (`takeWhile` of the session-gone
predicate — every popped object has no session key, and the first remaining
entry, if any, still has one), adds the popped objects to `P:queued`,
appends them to `P:queue`, repopulates the tagged queues from each popped
object's `P:tags:<o>` hash, returns them, and publishes exactly when at
least one object moved. On the concrete scenario — `queue("a")`,
`claim(1,60)`, deletion of `P:session:a` — it returns `["a"]` and leaves
`P:queue = ["a"]`, `P:claimed = []`. -/
theorem cleanExpired_spec :
    (∀ s : Store,
      (cleanExpired s).2.1 = s.claimed.takeWhile (fun o => (s.session o).isNone) ∧
      (cleanExpired s).1.claimed = s.claimed.dropWhile (fun o => (s.session o).isNone) ∧
      (cleanExpired s).1.queue = s.queue ++ (cleanExpired s).2.1 ∧
      (cleanExpired s).1.queued = saddAll s.queued (cleanExpired s).2.1 ∧
      (cleanExpired s).1.taggedQueue = pushTagged s.taggedQueue s.tags (cleanExpired s).2.1 ∧
      ((cleanExpired s).2.2 = true ↔ (cleanExpired s).2.1 ≠ []) ∧
      (∀ o ∈ (cleanExpired s).2.1, s.session o = none) ∧
      (∀ h t, (cleanExpired s).1.claimed = h :: t → s.session h ≠ none)) ∧
    (cleanExpired expiredAStore).2.1 = ["a"] ∧
    (cleanExpired expiredAStore).1.queue = ["a"] ∧
    (cleanExpired expiredAStore).1.claimed = [] ∧
    (cleanExpired expiredAStore).2.2 = true := by
  refine ⟨?_, by decide, by decide, by decide, by decide⟩
  intro s
  obtain ⟨h1, h2, h3, h4, h5, h6⟩ := cleanExpired_char s
  refine ⟨h1, h2, h3, h4, h5, h6, ?_, ?_⟩
  · intro o ho
    rw [h1] at ho
    have hp := List.mem_takeWhile_imp (p := fun o => (s.session o).isNone) ho
    exact Option.isNone_iff_eq_none.mp hp
  · intro hd t heq hsome
    rw [h2] at heq
    have := dropWhile_head_not heq
    rw [hsome] at this
    simp at this

theorem cleanExpired_spec_witness :
    claimedAStore.session "a" ≠ none :=
  (cleanExpired_spec.1 claimedAStore).2.2.2.2.2.2.2 "a" [] (by decide)

/-- C9 (counterexample): `ObjectPoolRegistry.add` is not idempotent — adding
a pool that is already registered pushes a second copy onto the list, and
the merged `$clean` stream then subscribes that pool's `$clean` twice. -/
theorem registry_add_counterexample :
    registryAdd ["p"] ["p"] = ["p", "p"] ∧
    registryAdd ["p"] ["p"] ≠ ["p"] ∧
    cleanStreamSubscriptionCount (registryAdd ["p"] ["p"]) "p" = 2 := by
  decide

/-- C9 (amended): `add` appends its arguments unconditionally; re-adding an
already-registered pool increases its occurrence count by one, and the
registry's merged `$clean` stream includes one `$clean` subscription per
registered occurrence (so a pool registered twice is cleaned twice per
period, not once). -/
theorem registry_add_appends :
    (∀ pools newPools, registryAdd pools newPools = pools ++ newPools) ∧
    (∀ pools p, cleanStreamSubscriptionCount (registryAdd pools [p]) p =
      cleanStreamSubscriptionCount pools p + 1) := by
  constructor
  · intro pools newPools
    rfl
  · intro pools p
    simp [cleanStreamSubscriptionCount, registryAdd]

/-- C10: for `maxCount ≥ 1`, a `claim` on an empty `P:queue` returns the
freshly generated session with an empty objects list and the store
unchanged; since no `P:session` key is created for the fresh session, any
`extend`, `release` or `requeue` presenting that session (on any non-empty
object list) fails without mutating the store. -/
theorem claim_empty_queue {s : Store} {maxCount expirationSeconds : Nat}
    {sess tag : String} (hmc : 1 ≤ maxCount) (hq : s.queue = [])
    (hfresh : ∀ o, s.session o ≠ some sess) :
    claim s maxCount expirationSeconds sess tag = (s, []) ∧
    (∀ objects e, objects ≠ [] → extend s objects sess e = some (s, false)) ∧
    (∀ objects, objects ≠ [] → release s objects sess = some (s, false)) ∧
    (∀ objects d, objects ≠ [] → requeue s objects sess d = some (s, false, false)) := by
  have hstale : ∀ objects : List String, objects ≠ [] →
      ∃ o ∈ objects, s.session o ≠ some sess := by
    intro objects hne
    match objects with
    | [] => exact absurd rfl hne
    | o :: rest => exact ⟨o, List.mem_cons_self o rest, hfresh o⟩
  refine ⟨?_, fun objects e hne => extend_guard_fails e hne (hstale objects hne),
    fun objects hne => release_guard_fails hne (hstale objects hne),
    fun objects d hne => requeue_guard_fails d hne (hstale objects hne)⟩
  unfold claim
  rw [if_neg (show ¬ maxCount = 0 by omega)]
  simp only [claimScript, hq]
  by_cases hpath : tag = "" ∨ maxCount < 2
  · rw [if_pos hpath]
  · rw [if_neg hpath]

theorem claim_empty_queue_witness :
    claim initStore 1 60 "S" "" = (initStore, []) ∧
    extend initStore ["a"] "S" 60 = some (initStore, false) :=
  ⟨(@claim_empty_queue initStore 1 60 "S" "" (by decide) rfl
      (fun o => by simp [initStore])).1,
   (@claim_empty_queue initStore 1 60 "S" "" (by decide) rfl
      (fun o => by simp [initStore])).2.1 ["a"] 60 (by decide)⟩

end RedResource
